import Mathlib

/-!
# Hosts-file API (`pkg/hostsapi/hostsapi.go`)

A shallow embedding of the hosts-file parser, the in-memory store and
`Write` (the buffer it builds, `Write_outbuf`, and the system calls that put
the buffer into the file), followed by theorems about them.

Modelling conventions.

* A Go `string` is the list of its Unicode code points (`Str`); the inputs
  considered are valid UTF-8.  `len(s) <= 0` is then `s.length ≤ 0`, and
  `s[0] == '#'` compares the first code point with `#` (an ASCII byte).
* A `*HostEntry` is a non-nil pointer: the address of the object together with
  the object found there (`HostEntryPtr`).  Nothing in the package writes
  through such a pointer, and `==` on pointers compares addresses.
  Allocation (`&HostEntry{...}`) takes the next free address from a counter
  that is passed in explicitly.
* A Go `map` is a finite partial function; `range` over it visits every key
  once in an order the runtime chooses, which is an explicit argument.
* The open file `hostsfile` is its content; `bufio.Scanner` with the split
  function `bufio.ScanLines` is `scanLines`, which ends the scan at the first
  line that does not fit the scanner's buffer of `MaxScanTokenSize` bytes (the
  code never reads `scanner.Err()`).  The file is not changed by anyone else
  between the load and `Write`.
* A call ends in one of three ways (`Result`): it returns a value, it returns
  a non-nil `error`, or it panics.
* The hosts file on disk is the list of its bytes; what the operating system
  does during `os.OpenFile`, `f.Write` and `f.Sync` (failure, number of bytes
  written, the process stopping) is an explicit argument (`SysRun`).
-/

namespace Hostsapi

/-- Go `string`: the sequence of its code points. -/
abbrev Str := List Char

/-- How a call ends: a value, a non-nil `error`, or a run-time panic. -/
inductive Result (ε α : Type) where
  | ok (a : α)
  | error (e : ε)
  | panic
  deriving DecidableEq, Repr

/-- The three `error` values `parseHostfileLine` builds. -/
inductive ParseError where
  /-- `errors.New("invalid line")` -/
  | invalidLine
  /-- `errors.New("comment line")` -/
  | commentLine
  /-- `fmt.Errorf("invalid fields for line: %q", line)` -/
  | invalidFields (line : Str)
  deriving DecidableEq, Repr

/-- The struct `HostEntry`. -/
structure HostEntry where
  idx : Int
  IP : Str
  Hostname : Str
  Comment : Str
  deriving DecidableEq, Repr

/-- A non-nil `*HostEntry`: an address and the object stored there. -/
structure HostEntryPtr where
  addr : Nat
  obj : HostEntry
  deriving DecidableEq, Repr

/-- Go `unicode.IsSpace`: the code points with the `White_Space` property. -/
def isSpace (c : Char) : Bool :=
  let n := c.toNat
  (0x09 ≤ n && n ≤ 0x0d) || n == 0x20 || n == 0x85 || n == 0xa0 || n == 0x1680 ||
    (0x2000 ≤ n && n ≤ 0x200a) || n == 0x2028 || n == 0x2029 || n == 0x202f ||
    n == 0x205f || n == 0x3000

/-- Go `strings.TrimSpace`: drop leading and trailing white space. -/
def TrimSpace (s : Str) : Str :=
  ((s.dropWhile isSpace).reverse.dropWhile isSpace).reverse

/-- The scan of `strings.Fields`: `cur` is the field being read (empty when
between fields). -/
def fieldsFrom : Str → Str → List Str
  | [], cur => if cur = [] then [] else [cur]
  | c :: cs, cur =>
    if isSpace c then
      if cur = [] then fieldsFrom cs [] else cur :: fieldsFrom cs []
    else fieldsFrom cs (cur ++ [c])

/-- Go `strings.Fields`: the maximal runs of non-space code points. -/
def Fields (s : Str) : List Str := fieldsFrom s []

/-- Go `strings.Join`. -/
def Join (elems : List Str) (sep : Str) : Str := List.intercalate sep elems

/-- Go `strings.Contains` (the empty string is contained in every string). -/
def Contains : Str → Str → Bool
  | [], substr => substr.isEmpty
  | c :: cs, substr => substr.isPrefixOf (c :: cs) || Contains cs substr

/-- The UTF-8 bytes of one code point. -/
def utf8 (c : Char) : List Nat :=
  let n := c.toNat
  if n < 0x80 then [n]
  else if n < 0x800 then [0xc0 + n / 0x40, 0x80 + n % 0x40]
  else if n < 0x10000 then [0xe0 + n / 0x1000, 0x80 + n / 0x40 % 0x40, 0x80 + n % 0x40]
  else [0xf0 + n / 0x40000, 0x80 + n / 0x1000 % 0x40, 0x80 + n / 0x40 % 0x40, 0x80 + n % 0x40]

/-- The bytes of a buffer or string, `outbuf.Bytes()`. -/
def Bytes (s : Str) : List Nat := (s.map utf8).flatten

/-- Go `bufio.MaxScanTokenSize`, the size of the largest buffer a
`bufio.Scanner` allocates: 64 KiB. -/
def MaxScanTokenSize : Nat := 64 * 1024

/-- The helper `dropCR` of Go `bufio`: drop one trailing carriage return. -/
def dropCR (s : Str) : Str :=
  if s.getLast? = some '\r' then s.dropLast else s

/-- The tokens `bufio.Scanner` yields with the split function
`bufio.ScanLines`; `cur` is the part of the current line already read.  A line
whose bytes before the line feed fill the buffer (`MaxScanTokenSize` bytes or
more) makes `Scan` return false with the error `ErrTooLong`: the scan ends
there and nothing more is yielded. -/
def scanLinesFrom : Str → Str → List Str
  | [], cur =>
    if cur = [] then []
    else if MaxScanTokenSize ≤ (Bytes cur).length then []
    else [dropCR cur]
  | c :: cs, cur =>
    if c = '\n' then
      if MaxScanTokenSize ≤ (Bytes cur).length then []
      else dropCR cur :: scanLinesFrom cs []
    else scanLinesFrom cs (cur ++ [c])

/-- The lines `for scanner.Scan()` sees on a file whose content is `data`:
each line without its end-of-line marker (a line feed, with one carriage
return before it dropped); a last line that lacks the line feed counts when
it is non-empty; the lines from the first over-long one on are never seen. -/
def scanLines (data : Str) : List Str := scanLinesFrom data []

/-- The local variables the field loop of `parseHostfileLine` assigns. -/
structure FieldScan where
  ip : Str
  hostnames : List Str
  commentidx : Nat
  deriving DecidableEq, Repr

/-- The loop `for i, f := range fields` of `parseHostfileLine`, from index `i`
on. -/
def scanFields : List Str → Nat → FieldScan → FieldScan
  | [], _, st => st
  | f :: fs, i, st =>
    if f = [] then scanFields fs (i + 1) st
    else if f.head? = some '#' then { st with commentidx := i + 1 }
    else if i = 0 then scanFields fs (i + 1) { st with ip := f }
    else scanFields fs (i + 1) { st with hostnames := st.hostnames ++ [f] }

/-- The loop `for _, hostname := range hostnames` of `parseHostfileLine`: one
freshly allocated entry per hostname, at the addresses from `alloc` on. -/
def mkEntries (alloc : Nat) (idx : Int) (ip comment : Str) : List Str → List HostEntryPtr
  | [] => []
  | hostname :: rest =>
    { addr := alloc, obj := { idx := idx, IP := ip, Hostname := hostname, Comment := comment } }
      :: mkEntries (alloc + 1) idx ip comment rest

/-- The function `parseHostfileLine`; `alloc` is the next free address.  The
index expression `line[0]` on an empty trimmed line is a run-time panic. -/
def parseHostfileLine (alloc : Nat) (idx : Int) (line : Str) :
    Result ParseError (List HostEntryPtr) :=
  if line.length ≤ 0 then .error .invalidLine
  else
    let line := TrimSpace line
    match line with
    | [] => .panic
    | c :: _ =>
      if c = '#' then .error .commentLine
      else
        let fields := Fields line
        let st := scanFields fields 0 { ip := [], hostnames := [], commentidx := 0 }
        let comment := if st.commentidx > 0 then Join (fields.drop st.commentidx) [' '] else []
        if st.ip = [] ∨ st.hostnames.length = 0 then .error (.invalidFields line)
        else .ok (mkEntries alloc idx st.ip comment st.hostnames)

/-- The struct `HostsAPI`. -/
structure HostsAPI where
  filter : Str
  /-- the content of the open hosts file -/
  hostsfile : Str
  entries : Str → Option HostEntryPtr
  remidxs : Int → Bool

/-- The map assignment `m[k] = v`. -/
def mapSet {κ ν : Type} [DecidableEq κ] (m : κ → Option ν) (k : κ) (v : ν) : κ → Option ν :=
  fun k2 => if k2 = k then some v else m k2

/-- The builtin `delete(m, k)`. -/
def mapDelete {κ ν : Type} [DecidableEq κ] (m : κ → Option ν) (k : κ) : κ → Option ν :=
  fun k2 => if k2 = k then none else m k2

/-- The set insertion `h.remidxs[i] = nil`. -/
def setInsert (s : Int → Bool) (i : Int) : Int → Bool :=
  fun j => if j = i then true else s j

/-- The inner loop `for _, e := range entries` of `loadAndParse`. -/
def admitEntries (h : HostsAPI) : List HostEntryPtr → HostsAPI
  | [] => h
  | e :: es =>
    if h.filter = [] ∨ Contains e.obj.Comment h.filter = true then
      admitEntries
        { h with entries := mapSet h.entries e.obj.Hostname e,
                 remidxs := setInsert h.remidxs e.obj.idx } es
    else admitEntries h es

/-- The body of the loop `for scanner.Scan()` of `loadAndParse`, run over the
lines the scanner yields, `idx` being the index of the next line. -/
def loadLoop : List Str → Int → Nat → HostsAPI → Result Unit (HostsAPI × Nat)
  | [], _, alloc, h => .ok (h, alloc)
  | line :: rest, idx, alloc, h =>
    match parseHostfileLine alloc idx line with
    | .panic => .panic
    | .error _ => loadLoop rest (idx + 1) alloc h
    | .ok entries => loadLoop rest (idx + 1) (alloc + entries.length) (admitEntries h entries)

/-- The method `loadAndParse`: a new scanner on the open file, then the loop;
on return the error is always `nil` (`scanner.Err()` is not read); the result
is the updated receiver and the next free address. -/
def loadAndParse (h : HostsAPI) (alloc : Nat) : Result Unit (HostsAPI × Nat) :=
  loadLoop (scanLines h.hostsfile) 0 alloc h

/-- The receiver `CreateAPI` builds before it calls `loadAndParse`: both maps
empty. -/
def newAPI (filter : Str) (data : Str) : HostsAPI :=
  { filter := filter, hostsfile := data, entries := fun _ => none, remidxs := fun _ => false }

/-- The function `CreateAPI` once the file is open (its content is `data`). -/
def CreateAPI (filter : Str) (data : Str) (alloc : Nat) : Result Unit (HostsAPI × Nat) :=
  loadAndParse (newAPI filter data) alloc

/-- The method `RemoveEntry`: the receiver afterwards, and whether the error
returned is non-nil. -/
def RemoveEntry (h : HostsAPI) (hostname : Str) : HostsAPI × Bool :=
  match h.entries hostname with
  | some _ => ({ h with entries := mapDelete h.entries hostname }, false)
  | none => (h, true)

/-- The method `AddEntry`: the receiver afterwards, and whether the error
returned is non-nil. -/
def AddEntry (h : HostsAPI) (entry : HostEntryPtr) : HostsAPI × Bool :=
  match h.entries entry.obj.Hostname with
  | some _ => (h, true)
  | none => ({ h with entries := mapSet h.entries entry.obj.Hostname entry }, false)

/-- The method `IsUpsertEntry`: the receiver afterwards and the boolean
returned.  `oldEntry == entry` compares two pointers. -/
def IsUpsertEntry (h : HostsAPI) (entry : HostEntryPtr) : HostsAPI × Bool :=
  match h.entries entry.obj.Hostname with
  | some oldEntry =>
    if oldEntry.addr = entry.addr then (h, false)
    else ({ h with entries := mapSet h.entries entry.obj.Hostname entry }, true)
  | none => ({ h with entries := mapSet h.entries entry.obj.Hostname entry }, true)

/-- The body of the first loop of `Write`, run over the lines the scanner
yields: the lines whose index is not in `remidxs`, each followed by CR LF;
`idx` is the index of the next line. -/
def replayLines (remidxs : Int → Bool) : List Str → Int → Str
  | [], _ => []
  | line :: rest, idx =>
    if remidxs idx = true then replayLines remidxs rest (idx + 1)
    else line ++ ['\r', '\n'] ++ replayLines remidxs rest (idx + 1)

/-- The line `Write` emits for one entry:
`fmt.Sprintf("%s %s%s\r\n", e.IP, e.Hostname, comment)`. -/
def formatEntry (e : HostEntry) : Str :=
  let comment := if e.Comment ≠ [] then "    # ".toList ++ e.Comment else []
  e.IP ++ [' '] ++ e.Hostname ++ comment ++ ['\r', '\n']

/-- The second loop of `Write`, `for _, e := range h.entries`, visiting the
keys in the order `order`. -/
def appendEntries (entries : Str → Option HostEntryPtr) : List Str → Str
  | [] => []
  | k :: ks =>
    match entries k with
    | some e => formatEntry e.obj ++ appendEntries entries ks
    | none => appendEntries entries ks

/-- The buffer `outbuf` that `Write` builds before it opens the file for
writing: a new scanner on the open file (rewound by `loadAndParse`) for the
first loop, then the entries; `order` is the order in which `range` visits the
keys. -/
def Write_outbuf (h : HostsAPI) (order : List Str) : Str :=
  replayLines h.remidxs (scanLines h.hostsfile) 0 ++ appendEntries h.entries order

/-- What `range` over a map may do: `order` lists every key exactly once. -/
def RangeOrder {ν : Type} (m : Str → Option ν) (order : List Str) : Prop :=
  order.Nodup ∧ ∀ k, k ∈ order ↔ (m k).isSome = true

/-- One call a client makes between load and `Write`. -/
inductive Op where
  | add (entry : HostEntryPtr)
  | remove (hostname : Str)
  | upsert (entry : HostEntryPtr)
  deriving DecidableEq, Repr

/-- Run one client call, keeping the receiver. -/
def applyOp (h : HostsAPI) : Op → HostsAPI
  | .add e => (AddEntry h e).1
  | .remove n => (RemoveEntry h n).1
  | .upsert e => (IsUpsertEntry h e).1

/-- Run a sequence of client calls in order. -/
def applyOps (h : HostsAPI) (ops : List Op) : HostsAPI :=
  ops.foldl applyOp h

/-! ## Vocabulary of the statements -/

/-- An entry passes the filter: the filter is empty, or it occurs in the
Comment as a substring. -/
def Admits (filter : Str) (e : HostEntry) : Prop :=
  filter = [] ∨ ∃ pre post : Str, e.Comment = pre ++ filter ++ post

instance (filter : Str) (e : HostEntry) : Decidable (Admits filter e) :=
  decidable_of_iff (filter = [] ∨ filter <:+: e.Comment)
    (or_congr Iff.rfl
      ⟨fun ⟨a, b, h⟩ => ⟨a, b, h.symm⟩, fun ⟨a, b, h⟩ => ⟨a, b, h.symm⟩⟩)

/-- Line `line`, read at index `i`, parses successfully, `e` is one of the
entries it produces, and `e` passes the filter. -/
def Yields (filter : Str) (i : Int) (line : Str) (e : HostEntry) : Prop :=
  ∃ alloc es p, parseHostfileLine alloc i line = .ok es ∧ p ∈ es ∧ p.obj = e ∧ Admits filter e

/-- Whether the line `line`, read at index `i`, is owned under `filter`: it
parses successfully and one of its entries passes the filter.  A line that
fails to parse, or whose entries all fail the filter, is not owned. -/
def ownedLine (filter : Str) (i : Int) (line : Str) : Bool :=
  match parseHostfileLine 0 i line with
  | .ok es => es.any (fun p => decide (Admits filter p.obj))
  | _ => false

/-- Among the lines `lines`, those that are not owned under `filter`, in
their original order. -/
def keptLines (filter : Str) (lines : List Str) : List Str :=
  (lines.enum.filter (fun p => !ownedLine filter (p.1 : Int) p.2)).map Prod.snd

/-- The receiver `CreateAPI` hands back when the load returns (and the
receiver before the load otherwise). -/
def loaded (filter : Str) (data : Str) : HostsAPI :=
  match CreateAPI filter data 0 with
  | .ok (h, _) => h
  | _ => newAPI filter data

/-- The lines of a small hosts file: an unmanaged entry, a managed line, a
comment line, an empty line and a managed line with two hostnames. -/
def sampleLines : List Str :=
  ["127.0.0.1 localhost".toList, "10.0.0.5 vm1 # managed by api".toList,
   "# static entries".toList, [], "10.0.0.6\tvm1 vm2   # managed by api".toList]

/-- The content of that hosts file, with mixed line ends; the scanner yields
`sampleLines` from it. -/
def sampleData : Str :=
  "127.0.0.1 localhost\n10.0.0.5 vm1 # managed by api\r\n".toList ++
    "# static entries\n\n10.0.0.6\tvm1 vm2   # managed by api\n".toList

/-- A comment line of 64 KiB: the code point `#`, `MaxScanTokenSize` times. -/
def longComment : Str := List.replicate MaxScanTokenSize '#'

/-- A hosts file whose first line is `longComment` and whose second line is
the unmanaged entry `127.0.0.1 localhost`. -/
def longFirstData : Str := longComment ++ '\n' :: "127.0.0.1 localhost\n".toList

/-- A hosts file whose first line is `longComment` and whose second line is a
managed entry for `vm2`. -/
def longThenManagedData : Str :=
  longComment ++ '\n' :: "10.0.0.6 vm2 # managed by api\n".toList

/-- A hosts file with a managed entry for `vm1`, then `longComment`, then the
unmanaged entry `127.0.0.1 localhost`. -/
def managedThenLongData : Str :=
  "10.0.0.5 vm1 # managed by api".toList ++
    '\n' :: (longComment ++ '\n' :: "127.0.0.1 localhost\n".toList)

/-- The store with the filter `managed by api` and the file `data` that holds
the entry of the line `10.0.0.5 vm1 # managed by api` at index 0, and nothing
else. -/
def vm1Store (data : Str) : HostsAPI :=
  { filter := "managed by api".toList
    hostsfile := data
    entries := mapSet (fun _ => none) "vm1".toList
      ⟨0, ⟨0, "10.0.0.5".toList, "vm1".toList, "managed by api".toList⟩⟩
    remidxs := setInsert (fun _ => false) 0 }

/-- A few client calls on the store loaded from `sampleData`: remove a
managed hostname, add a new entry, upsert another, and a remove that fails. -/
def sampleOps : List Op :=
  [Op.remove "vm2".toList,
   Op.add ⟨10, ⟨-1, "10.0.0.9".toList, "vm9".toList, "managed by api".toList⟩⟩,
   Op.upsert ⟨11, ⟨-1, "10.0.0.7".toList, "vm1".toList, []⟩⟩,
   Op.remove "localhost".toList]

/-- A token of a hosts line: non-empty and free of white space. -/
def IsToken (t : Str) : Prop := t ≠ [] ∧ ∀ c ∈ t, isSpace c = false

instance (t : Str) : Decidable (IsToken t) := by
  unfold IsToken; infer_instance

/-- A separator between two tokens: a non-empty run of spaces and tabs. -/
def IsSep (s : Str) : Prop := s ≠ [] ∧ ∀ c ∈ s, c = ' ' ∨ c = '\t'

instance (s : Str) : Decidable (IsSep s) := by
  unfold IsSep; infer_instance

/-- The text of a run of tokens, each preceded by its separator. -/
def spaced : List (Str × Str) → Str
  | [] => []
  | p :: ps => p.1 ++ p.2 ++ spaced ps

/-- The entries the parser can produce: IP and Hostname are tokens that do
not begin with `#`, and the Comment is a list of tokens joined by single
spaces (empty when there is none). -/
def WfEntry (e : HostEntry) : Prop :=
  (IsToken e.IP ∧ e.IP.head? ≠ some '#') ∧ (IsToken e.Hostname ∧ e.Hostname.head? ≠ some '#') ∧
    ∃ ws : List Str, (∀ w ∈ ws, IsToken w) ∧ e.Comment = List.intercalate [' '] ws

/-- The line `Write` emits for an entry, without the CR LF that ends it. -/
def entryLine (e : HostEntry) : Str :=
  e.IP ++ [' '] ++ e.Hostname ++ (if e.Comment ≠ [] then "    # ".toList ++ e.Comment else [])

/-- A written line can be read back: with the CR that `Write` puts behind it,
the line takes fewer bytes than the scanner's buffer holds. -/
def FitsScanner (l : Str) : Prop := (Bytes l).length + 1 < MaxScanTokenSize

instance (l : Str) : Decidable (FitsScanner l) :=
  inferInstanceAs (Decidable ((Bytes l).length + 1 < MaxScanTokenSize))

/-- An entry as a client builds it for `AddEntry` or `IsUpsertEntry`: the
object `{IP: "10.0.0.5", Hostname: "vm1", Comment: "managed by api"}`,
allocated at address `addr`. -/
def vm1Entry (addr : Nat) : HostEntryPtr :=
  { addr := addr,
    obj := { idx := 0, IP := "10.0.0.5".toList, Hostname := "vm1".toList,
             Comment := "managed by api".toList } }

/-- A second client entry, `{IP: "10.0.0.6", Hostname: "vm2", Comment: ""}`,
allocated at address `addr`. -/
def vm2Entry (addr : Nat) : HostEntryPtr :=
  { addr := addr,
    obj := { idx := 0, IP := "10.0.0.6".toList, Hostname := "vm2".toList, Comment := [] } }

/-- A store with one unmanaged file line and the two client entries `vm1` and
`vm2`, as two upserts on a fresh receiver leave it. -/
def twoEntryStore : HostsAPI :=
  (IsUpsertEntry (IsUpsertEntry (newAPI [] "127.0.0.1 localhost\r\n".toList) (vm1Entry 0)).1
    (vm2Entry 1)).1


/-- The two errors `Write` can return. -/
inductive WriteError where
  /-- `fmt.Errorf("failed to open hosts file for writing: %w", err)` -/
  | openFailed
  /-- the error of `f.Sync()`, returned as it is -/
  | syncFailed
  deriving DecidableEq, Repr

/-- How a call of `Write` ends: it returns (`nil` or an error), or the process
stops before it returns. -/
inductive WriteEnding where
  | returned (err : Option WriteError)
  | stopped
  deriving DecidableEq, Repr

/-- What the operating system does during the system calls of `Write`:
whether `os.OpenFile` fails; how many bytes of the buffer `f.Write` gets into
the file (fewer than all of them when it fails or the process stops); whether
the process stops after the file was opened and before `Write` returns;
whether `f.Sync` fails. -/
structure SysRun where
  openFails : Bool
  written : Nat
  stops : Bool
  syncFails : Bool
  deriving DecidableEq, Repr

/-- The method `Write`, with the hosts file on disk holding the bytes `disk`
before the call: the content of the hosts file afterwards and how the call
ends.  The file is opened in place with `O_WRONLY|O_TRUNC`, which empties it
when the open succeeds; the values `f.Write` returns are discarded; the error
of `f.Sync` is returned. -/
def Write (h : HostsAPI) (order : List Str) (disk : List Nat) (run : SysRun) :
    List Nat × WriteEnding :=
  let outbuf := Write_outbuf h order
  if run.openFails then (disk, .returned (some .openFailed))
  else
    let file := (Bytes outbuf).take run.written
    if run.stops then (file, .stopped)
    else if run.syncFails then (file, .returned (some .syncFailed))
    else (file, .returned none)


/-! ## The store operations -/

theorem mapSet_same {κ ν : Type} [DecidableEq κ] (m : κ → Option ν) (k : κ) (v : ν) :
    mapSet m k v k = some v := by
  simp [mapSet]

theorem mapSet_other {κ ν : Type} [DecidableEq κ] (m : κ → Option ν) (k k2 : κ) (v : ν)
    (hne : k2 ≠ k) : mapSet m k v k2 = m k2 := by
  simp [mapSet, hne]

theorem mapDelete_same {κ ν : Type} [DecidableEq κ] (m : κ → Option ν) (k : κ) :
    mapDelete m k k = none := by
  simp [mapDelete]

theorem mapDelete_other {κ ν : Type} [DecidableEq κ] (m : κ → Option ν) (k k2 : κ)
    (hne : k2 ≠ k) : mapDelete m k k2 = m k2 := by
  simp [mapDelete, hne]

/-- C9: `AddEntry` returns an error exactly when the entry's Hostname is
already a key; then the receiver is unchanged; otherwise the store maps that
Hostname to the given entry, every other key keeps its entry, and the owned
lines, the filter and the file are untouched. -/
theorem AddEntry_fails_iff_present (h : HostsAPI) (entry : HostEntryPtr) :
    ((AddEntry h entry).2 = true ↔ (h.entries entry.obj.Hostname).isSome = true) ∧
    ((AddEntry h entry).2 = true → (AddEntry h entry).1 = h) ∧
    ((AddEntry h entry).2 = false →
      (AddEntry h entry).1.entries entry.obj.Hostname = some entry ∧
      (∀ k, k ≠ entry.obj.Hostname → (AddEntry h entry).1.entries k = h.entries k) ∧
      (AddEntry h entry).1.remidxs = h.remidxs ∧
      (AddEntry h entry).1.filter = h.filter ∧
      (AddEntry h entry).1.hostsfile = h.hostsfile) := by
  unfold AddEntry
  cases hk : h.entries entry.obj.Hostname with
  | none =>
    refine ⟨by simp, by simp, fun _ => ⟨?_, ?_, rfl, rfl, rfl⟩⟩
    · exact mapSet_same _ _ _
    · intro k hne
      exact mapSet_other _ _ _ _ hne
  | some old => simp

/-- C10: `RemoveEntry` returns an error exactly when the hostname is not a
key; then the receiver is unchanged; otherwise the hostname is no longer a
key, every other key keeps its entry, and the owned lines, the filter and the
file are untouched. -/
theorem RemoveEntry_fails_iff_absent (h : HostsAPI) (hostname : Str) :
    ((RemoveEntry h hostname).2 = true ↔ h.entries hostname = none) ∧
    ((RemoveEntry h hostname).2 = true → (RemoveEntry h hostname).1 = h) ∧
    ((RemoveEntry h hostname).2 = false →
      (RemoveEntry h hostname).1.entries hostname = none ∧
      (∀ k, k ≠ hostname → (RemoveEntry h hostname).1.entries k = h.entries k) ∧
      (RemoveEntry h hostname).1.remidxs = h.remidxs ∧
      (RemoveEntry h hostname).1.filter = h.filter ∧
      (RemoveEntry h hostname).1.hostsfile = h.hostsfile) := by
  unfold RemoveEntry
  cases hk : h.entries hostname with
  | none => simp
  | some old =>
    refine ⟨by simp, by simp, fun _ => ⟨?_, ?_, rfl, rfl, rfl⟩⟩
    · exact mapDelete_same _ _
    · intro k hne
      exact mapDelete_other _ _ _ hne

/-- Upserting the very pointer the store already holds returns false and
leaves the receiver unchanged. -/
theorem IsUpsertEntry_same_pointer (h : HostsAPI) (entry old : HostEntryPtr)
    (hold : h.entries entry.obj.Hostname = some old) (hptr : old.addr = entry.addr) :
    IsUpsertEntry h entry = (h, false) := by
  simp [IsUpsertEntry, hold, hptr]

/-- C2 (the code at the failing input): on an empty store the first upsert of
`{10.0.0.5, vm1, "managed by api"}` returns true, and a second upsert of a
separately allocated entry with the same IP, Hostname and Comment returns true
as well and replaces the stored pointer, because `oldEntry == entry` compares
addresses. -/
theorem IsUpsertEntry_equal_fields_returns_true :
    (IsUpsertEntry (newAPI [] []) (vm1Entry 0)).2 = true ∧
    (IsUpsertEntry (newAPI [] []) (vm1Entry 0)).1.entries "vm1".toList = some (vm1Entry 0) ∧
    (vm1Entry 1).obj = (vm1Entry 0).obj ∧
    (IsUpsertEntry (IsUpsertEntry (newAPI [] []) (vm1Entry 0)).1 (vm1Entry 1)).2 = true ∧
    (IsUpsertEntry (IsUpsertEntry (newAPI [] []) (vm1Entry 0)).1 (vm1Entry 1)).1.entries
      "vm1".toList = some (vm1Entry 1) := by
  decide

/-! ## The parser -/

/-- C6 (the code at the failing input): the empty line is rejected with the
error "invalid line", but a line made of one space, or of spaces and tabs,
passes the length test, is trimmed to the empty string, and the index
expression `line[0]` panics: no error is returned. -/
theorem parseHostfileLine_blank_line_panics :
    parseHostfileLine 0 0 [] = .error .invalidLine ∧
    parseHostfileLine 0 0 " ".toList = .panic ∧
    parseHostfileLine 0 0 "  \t ".toList = .panic := by
  decide

/-- C8 (the code at the failing input): the field that begins with `#` is
skipped as a whole, so in `10.0.0.5 vm1 #managed by api` the word glued to the
marker is lost and the Comment is `by api`, which does not contain
`managed by api`. -/
theorem parseHostfileLine_drops_marker_field :
    parseHostfileLine 0 0 "10.0.0.5 vm1 #managed by api".toList =
      .ok [{ addr := 0,
             obj := { idx := 0, IP := "10.0.0.5".toList, Hostname := "vm1".toList,
                      Comment := "by api".toList } }] ∧
    Contains "by api".toList "managed by api".toList = false := by
  decide

/-- A string that begins with a non-space code point loses nothing at the
front. -/
theorem dropWhile_isSpace_cons (c : Char) (t : Str) (hc : isSpace c = false) :
    List.dropWhile isSpace (c :: t) = c :: t := by
  simp [List.dropWhile, hc]

/-- Trimming leaves a string alone when its first and last code points are
not spaces. -/
theorem TrimSpace_eq_self (a b : Char) (t u : Str) (ha : isSpace a = false)
    (hb : isSpace b = false) (hs : a :: t = u ++ [b]) : TrimSpace (a :: t) = a :: t := by
  unfold TrimSpace
  rw [dropWhile_isSpace_cons a t ha, hs, List.reverse_append]
  simp [List.dropWhile, hb]

/-- Reading a run of non-space code points extends the current field. -/
theorem fieldsFrom_token (t rest cur : Str) (ht : ∀ c ∈ t, isSpace c = false) :
    fieldsFrom (t ++ rest) cur = fieldsFrom rest (cur ++ t) := by
  induction t generalizing cur with
  | nil => simp
  | cons c t ih =>
    have hc : isSpace c = false := ht c (List.mem_cons_self _ _)
    have ht2 : ∀ d ∈ t, isSpace d = false := fun d hd => ht d (List.mem_cons_of_mem _ hd)
    show fieldsFrom (c :: (t ++ rest)) cur = _
    simp only [fieldsFrom, hc]
    rw [if_neg (by simp), ih _ ht2]
    simp

/-- Reading a run of spaces between fields changes nothing. -/
theorem fieldsFrom_spaces_nil (s rest : Str) (hs : ∀ c ∈ s, isSpace c = true) :
    fieldsFrom (s ++ rest) [] = fieldsFrom rest [] := by
  induction s with
  | nil => simp
  | cons c s ih =>
    have hc : isSpace c = true := hs c (List.mem_cons_self _ _)
    have hs2 : ∀ d ∈ s, isSpace d = true := fun d hd => hs d (List.mem_cons_of_mem _ hd)
    show fieldsFrom (c :: (s ++ rest)) [] = _
    simp only [fieldsFrom, hc]
    simpa using ih hs2

/-- Reading a non-empty run of spaces closes the current field. -/
theorem fieldsFrom_spaces (s rest cur : Str) (hs0 : s ≠ []) (hs : ∀ c ∈ s, isSpace c = true)
    (hcur : cur ≠ []) : fieldsFrom (s ++ rest) cur = cur :: fieldsFrom rest [] := by
  cases s with
  | nil => exact absurd rfl hs0
  | cons c s =>
    have hc : isSpace c = true := hs c (List.mem_cons_self _ _)
    have hs2 : ∀ d ∈ s, isSpace d = true := fun d hd => hs d (List.mem_cons_of_mem _ hd)
    show fieldsFrom (c :: (s ++ rest)) cur = _
    simp only [fieldsFrom, hc, hcur]
    simp [fieldsFrom_spaces_nil s rest hs2]

/-- A separator is a run of white space. -/
theorem IsSep.spaces {s : Str} (hs : IsSep s) : ∀ c ∈ s, isSpace c = true := by
  intro c hc
  rcases hs.2 c hc with h | h <;> subst h <;> decide

/-- The fields of a run of separated tokens read after the field `cur`. -/
theorem fieldsFrom_spaced (ps : List (Str × Str)) (cur : Str) (hcur : cur ≠ [])
    (hps : ∀ p ∈ ps, IsSep p.1 ∧ IsToken p.2) :
    fieldsFrom (spaced ps) cur = cur :: ps.map Prod.snd := by
  induction ps generalizing cur with
  | nil => simp [spaced, fieldsFrom, hcur]
  | cons p ps ih =>
    obtain ⟨hsep, htok⟩ := hps p (List.mem_cons_self _ _)
    have hps2 : ∀ q ∈ ps, IsSep q.1 ∧ IsToken q.2 :=
      fun q hq => hps q (List.mem_cons_of_mem _ hq)
    simp only [spaced, List.append_assoc, List.map_cons]
    rw [fieldsFrom_spaces p.1 _ cur hsep.1 hsep.spaces hcur, fieldsFrom_token p.2 _ [] htok.2]
    rw [List.nil_append, ih p.2 htok.1 hps2]

/-- The fields of a token followed by separated tokens. -/
theorem Fields_spaced (t : Str) (ps : List (Str × Str)) (ht : IsToken t)
    (hps : ∀ p ∈ ps, IsSep p.1 ∧ IsToken p.2) :
    Fields (t ++ spaced ps) = t :: ps.map Prod.snd := by
  unfold Fields
  rw [fieldsFrom_token t _ [] ht.2, List.nil_append, fieldsFrom_spaced ps t ht.1 hps]

/-- Text that ends in a non-space code point still does after separated
tokens are appended. -/
theorem spaced_ends_token (ps : List (Str × Str)) (y : Str)
    (hy : ∃ u b, y = u ++ [b] ∧ isSpace b = false)
    (hps : ∀ p ∈ ps, IsSep p.1 ∧ IsToken p.2) :
    ∃ u b, y ++ spaced ps = u ++ [b] ∧ isSpace b = false := by
  induction ps generalizing y with
  | nil => simpa [spaced] using hy
  | cons p ps ih =>
    obtain ⟨_, htok⟩ := hps p (List.mem_cons_self _ _)
    have hps2 : ∀ q ∈ ps, IsSep q.1 ∧ IsToken q.2 :=
      fun q hq => hps q (List.mem_cons_of_mem _ hq)
    have hlast : ∃ u b, y ++ p.1 ++ p.2 = u ++ [b] ∧ isSpace b = false := by
      rcases List.eq_nil_or_concat p.2 with h | ⟨u, b, h⟩
      · exact absurd h htok.1
      · refine ⟨y ++ p.1 ++ u, b, ?_, ?_⟩
        · rw [h]; simp
        · exact htok.2 b (by rw [h]; simp)
    have := ih (y ++ p.1 ++ p.2) hlast hps2
    simpa [spaced, List.append_assoc] using this

/-- The field loop on hostname fields followed by a comment marker: the
hostnames are collected in order and `commentidx` is the index after the
marker. -/
theorem scanFields_hostnames (hs : List Str) (m : Str) (cs : List Str) (i : Nat)
    (st : FieldScan) (hi : i ≠ 0) (hhs : ∀ t ∈ hs, t ≠ [] ∧ t.head? ≠ some '#')
    (hm : m.head? = some '#') :
    scanFields (hs ++ m :: cs) i st =
      { st with hostnames := st.hostnames ++ hs, commentidx := i + hs.length + 1 } := by
  induction hs generalizing i st with
  | nil =>
    have hm0 : m ≠ [] := by
      intro h; simp [h] at hm
    simp [scanFields, hm0, hm]
  | cons t hs ih =>
    obtain ⟨ht0, ht1⟩ := hhs t (List.mem_cons_self _ _)
    have hhs2 : ∀ u ∈ hs, u ≠ [] ∧ u.head? ≠ some '#' :=
      fun u hu => hhs u (List.mem_cons_of_mem _ hu)
    show scanFields (t :: (hs ++ m :: cs)) i st = _
    simp only [scanFields, ht0, ht1, hi, if_false]
    rw [ih (i + 1) _ (Nat.succ_ne_zero i) hhs2]
    simp [List.append_assoc, Nat.add_comm, Nat.add_left_comm]

/-- The objects `mkEntries` allocates: one per hostname, in order. -/
theorem mkEntries_objs (alloc : Nat) (idx : Int) (ip comment : Str) (hs : List Str) :
    (mkEntries alloc idx ip comment hs).map HostEntryPtr.obj =
      hs.map (fun hn => { idx := idx, IP := ip, Hostname := hn, Comment := comment }) := by
  induction hs generalizing alloc with
  | nil => rfl
  | cons t hs ih => simp [mkEntries, ih]

/-- The body of `parseHostfileLine` once the trimmed line is known to start
with a code point other than `#`. -/
theorem parseHostfileLine_data (alloc : Nat) (idx : Int) (line : Str) (c : Char) (t : Str)
    (h0 : line ≠ []) (ht : TrimSpace line = c :: t) (hc : c ≠ '#') :
    parseHostfileLine alloc idx line =
      if (scanFields (Fields (c :: t)) 0 { ip := [], hostnames := [], commentidx := 0 }).ip = [] ∨
          (scanFields (Fields (c :: t)) 0
            { ip := [], hostnames := [], commentidx := 0 }).hostnames.length = 0 then
        .error (.invalidFields (c :: t))
      else
        .ok (mkEntries alloc idx
          (scanFields (Fields (c :: t)) 0 { ip := [], hostnames := [], commentidx := 0 }).ip
          (if (scanFields (Fields (c :: t)) 0
                { ip := [], hostnames := [], commentidx := 0 }).commentidx > 0 then
            Join ((Fields (c :: t)).drop
              (scanFields (Fields (c :: t)) 0
                { ip := [], hostnames := [], commentidx := 0 }).commentidx) [' ']
           else [])
          (scanFields (Fields (c :: t)) 0
            { ip := [], hostnames := [], commentidx := 0 }).hostnames) := by
  have hlen : ¬ line.length ≤ 0 := by
    cases line with
    | nil => exact absurd rfl h0
    | cons a l => simp
  unfold parseHostfileLine
  simp only [hlen, if_false, ht, hc]

theorem spaced_append (ps qs : List (Str × Str)) :
    spaced (ps ++ qs) = spaced ps ++ spaced qs := by
  induction ps with
  | nil => rfl
  | cons p ps ih => simp [spaced, ih]

/-- Parsing a line made of a first token that does not begin with `#` and
further separated tokens: the trimmed line is the line itself, its fields are
the tokens, and the outcome is what the field loop makes of them. -/
theorem parseHostfileLine_tokens (alloc : Nat) (n : Int) (ip : Str) (ps : List (Str × Str))
    (hip : IsToken ip) (hip2 : ip.head? ≠ some '#')
    (hps : ∀ p ∈ ps, IsSep p.1 ∧ IsToken p.2) :
    parseHostfileLine alloc n (ip ++ spaced ps) =
      if (scanFields (ip :: ps.map Prod.snd) 0 { ip := [], hostnames := [], commentidx := 0 }).ip
            = [] ∨
          (scanFields (ip :: ps.map Prod.snd) 0
            { ip := [], hostnames := [], commentidx := 0 }).hostnames.length = 0 then
        .error (.invalidFields (ip ++ spaced ps))
      else
        .ok (mkEntries alloc n
          (scanFields (ip :: ps.map Prod.snd) 0 { ip := [], hostnames := [], commentidx := 0 }).ip
          (if (scanFields (ip :: ps.map Prod.snd) 0
                { ip := [], hostnames := [], commentidx := 0 }).commentidx > 0 then
            Join ((ip :: ps.map Prod.snd).drop
              (scanFields (ip :: ps.map Prod.snd) 0
                { ip := [], hostnames := [], commentidx := 0 }).commentidx) [' ']
           else [])
          (scanFields (ip :: ps.map Prod.snd) 0
            { ip := [], hostnames := [], commentidx := 0 }).hostnames) := by
  cases ip with
  | nil => exact absurd rfl hip.1
  | cons a ip1 =>
    have ha : isSpace a = false := hip.2 a (List.mem_cons_self _ _)
    have ha2 : a ≠ '#' := by
      intro h; apply hip2; simp [h]
    have hend : ∃ u b, (a :: ip1) ++ spaced ps = u ++ [b] ∧ isSpace b = false := by
      apply spaced_ends_token _ _ _ hps
      rcases List.eq_nil_or_concat (a :: ip1) with h | ⟨u, b, h⟩
      · exact absurd h (List.cons_ne_nil _ _)
      · exact ⟨u, b, by simpa using h, hip.2 b (by rw [h]; simp)⟩
    obtain ⟨u, b, hub, hb⟩ := hend
    have htrim : TrimSpace ((a :: ip1) ++ spaced ps) = a :: (ip1 ++ spaced ps) :=
      TrimSpace_eq_self a b _ u ha hb hub
    have hfields : Fields (a :: (ip1 ++ spaced ps)) = (a :: ip1) :: ps.map Prod.snd :=
      Fields_spaced (a :: ip1) ps hip hps
    rw [parseHostfileLine_data alloc n _ a _ (by simp) htrim ha2, hfields]
    rfl

/-- The field loop on hostname fields with no comment marker after them. -/
theorem scanFields_plain (hs : List Str) (i : Nat) (st : FieldScan) (hi : i ≠ 0)
    (hhs : ∀ t ∈ hs, t ≠ [] ∧ t.head? ≠ some '#') :
    scanFields hs i st = { st with hostnames := st.hostnames ++ hs } := by
  induction hs generalizing i st with
  | nil => simp [scanFields]
  | cons t hs ih =>
    obtain ⟨ht0, ht1⟩ := hhs t (List.mem_cons_self _ _)
    have hhs2 : ∀ u ∈ hs, u ≠ [] ∧ u.head? ≠ some '#' :=
      fun u hu => hhs u (List.mem_cons_of_mem _ hu)
    simp only [scanFields, ht0, ht1, hi, if_false]
    rw [ih (i + 1) _ (Nat.succ_ne_zero i) hhs2]
    simp [List.append_assoc]

/-- Parsing `IP h1 .. hk m c`, where `m` is a token that begins with `#`: one
entry per hostname, allocated in order, whose Comment is made of the tokens
after `m`. -/
theorem parseHostfileLine_layout (alloc : Nat) (n : Int) (ip : Str)
    (hs : List (Str × Str)) (sepc m : Str) (cs : List (Str × Str))
    (hip : IsToken ip) (hip2 : ip.head? ≠ some '#') (hk : hs ≠ [])
    (hhs : ∀ p ∈ hs, IsSep p.1 ∧ IsToken p.2 ∧ p.2.head? ≠ some '#')
    (hsepc : IsSep sepc) (hm : IsToken m) (hm2 : m.head? = some '#')
    (hcs : ∀ p ∈ cs, IsSep p.1 ∧ IsToken p.2) :
    parseHostfileLine alloc n (ip ++ spaced hs ++ sepc ++ m ++ spaced cs) =
      .ok (mkEntries alloc n ip (List.intercalate [' '] (cs.map Prod.snd)) (hs.map Prod.snd)) := by
  have hall : ∀ p ∈ hs ++ (sepc, m) :: cs, IsSep p.1 ∧ IsToken p.2 := by
    intro p hp
    rcases List.mem_append.1 hp with h | h
    · exact ⟨(hhs p h).1, (hhs p h).2.1⟩
    · rcases List.mem_cons.1 h with h | h
      · subst h
        exact ⟨hsepc, hm⟩
      · exact hcs p h
  have hline : ip ++ spaced hs ++ sepc ++ m ++ spaced cs =
      ip ++ spaced (hs ++ (sepc, m) :: cs) := by
    simp [spaced_append, spaced, List.append_assoc]
  have hmap : (hs ++ (sepc, m) :: cs).map Prod.snd =
      hs.map Prod.snd ++ m :: cs.map Prod.snd := by simp
  have hscan : scanFields (ip :: (hs.map Prod.snd ++ m :: cs.map Prod.snd)) 0
      { ip := [], hostnames := [], commentidx := 0 } =
      { ip := ip, hostnames := hs.map Prod.snd,
        commentidx := 1 + (hs.map Prod.snd).length + 1 } := by
    simp only [scanFields, hip.1, hip2, if_false, if_true]
    rw [scanFields_hostnames (hs.map Prod.snd) m (cs.map Prod.snd) (0 + 1) _ (by decide)
      (by
        intro t ht
        obtain ⟨p, hp, rfl⟩ := List.mem_map.1 ht
        exact ⟨(hhs p hp).2.1.1, (hhs p hp).2.2⟩)
      hm2]
    simp
  have hne : ¬ (ip = [] ∨ (hs.map Prod.snd).length = 0) := by
    cases hs with
    | nil => exact absurd rfl hk
    | cons p ps => simp [hip.1]
  have hdrop : List.drop (1 + (hs.map Prod.snd).length + 1)
      (ip :: (hs.map Prod.snd ++ m :: cs.map Prod.snd)) = cs.map Prod.snd := by
    have h1 : 1 + (hs.map Prod.snd).length + 1 = ((hs.map Prod.snd).length + 1) + 1 := by omega
    rw [h1, List.drop_succ_cons]
    have h2 : hs.map Prod.snd ++ m :: cs.map Prod.snd =
        (hs.map Prod.snd ++ [m]) ++ cs.map Prod.snd := by simp
    rw [h2, List.drop_left' (by simp)]
  have hpos : 1 + (hs.map Prod.snd).length + 1 > 0 := by omega
  rw [hline, parseHostfileLine_tokens alloc n ip _ hip hip2 hall, hmap, hscan]
  simp only [hne, if_false, hpos, if_true, hdrop, Join]

/-- Parsing `IP h1 .. hk` with no comment: one entry per hostname, with an
empty Comment. -/
theorem parseHostfileLine_plain (alloc : Nat) (n : Int) (ip : Str) (hs : List (Str × Str))
    (hip : IsToken ip) (hip2 : ip.head? ≠ some '#') (hk : hs ≠ [])
    (hhs : ∀ p ∈ hs, IsSep p.1 ∧ IsToken p.2 ∧ p.2.head? ≠ some '#') :
    parseHostfileLine alloc n (ip ++ spaced hs) =
      .ok (mkEntries alloc n ip [] (hs.map Prod.snd)) := by
  have hall : ∀ p ∈ hs, IsSep p.1 ∧ IsToken p.2 := fun p hp => ⟨(hhs p hp).1, (hhs p hp).2.1⟩
  have hscan : scanFields (ip :: hs.map Prod.snd) 0
      { ip := [], hostnames := [], commentidx := 0 } =
      { ip := ip, hostnames := hs.map Prod.snd, commentidx := 0 } := by
    simp only [scanFields, hip.1, hip2, if_false, if_true]
    rw [scanFields_plain (hs.map Prod.snd) (0 + 1) _ (by decide)
      (by
        intro t ht
        obtain ⟨p, hp, rfl⟩ := List.mem_map.1 ht
        exact ⟨(hhs p hp).2.1.1, (hhs p hp).2.2⟩)]
    simp
  have hne : ¬ (ip = [] ∨ (hs.map Prod.snd).length = 0) := by
    cases hs with
    | nil => exact absurd rfl hk
    | cons p ps => simp [hip.1]
  rw [parseHostfileLine_tokens alloc n ip _ hip hip2 hall, hscan]
  simp only [hne, if_false, gt_iff_lt, lt_self_iff_false]

/-- C1: a line laid out as `IP h1 .. hk # c`, the tokens separated by
non-empty runs of spaces and tabs, parses successfully to exactly one entry
per hostname, in the original order, every entry carrying the index given,
the IP, and the comment words joined by single spaces. -/
theorem parseHostfileLine_wellformed (alloc : Nat) (n : Int) (ip : Str)
    (hs : List (Str × Str)) (sepc : Str) (cs : List (Str × Str))
    (hip : IsToken ip) (hip2 : ip.head? ≠ some '#') (hk : hs ≠ [])
    (hhs : ∀ p ∈ hs, IsSep p.1 ∧ IsToken p.2 ∧ p.2.head? ≠ some '#')
    (hsepc : IsSep sepc) (hcs : ∀ p ∈ cs, IsSep p.1 ∧ IsToken p.2) :
    ∃ es, parseHostfileLine alloc n (ip ++ spaced hs ++ sepc ++ ['#'] ++ spaced cs) = .ok es ∧
      es.map HostEntryPtr.obj =
        hs.map (fun p => { idx := n, IP := ip, Hostname := p.2,
                           Comment := List.intercalate [' '] (cs.map Prod.snd) }) := by
  refine ⟨_, parseHostfileLine_layout alloc n ip hs sepc ['#'] cs hip hip2 hk hhs hsepc
    (by decide) rfl hcs, ?_⟩
  rw [mkEntries_objs, List.map_map]
  rfl

/-- The example of the specification as an instance of
`parseHostfileLine_wellformed`. -/
theorem parseHostfileLine_wellformed_witness :
    ∃ es, parseHostfileLine 0 0 "127.0.0.1 myvm.local   # managed by api".toList = .ok es ∧
      es.map HostEntryPtr.obj =
        [{ idx := 0, IP := "127.0.0.1".toList, Hostname := "myvm.local".toList,
           Comment := "managed by api".toList }] :=
  parseHostfileLine_wellformed 0 0 "127.0.0.1".toList [(" ".toList, "myvm.local".toList)]
    "   ".toList
    [(" ".toList, "managed".toList), (" ".toList, "by".toList), (" ".toList, "api".toList)]
    (by decide) (by decide) (by decide) (by decide) (by decide) (by decide)

/-- The three ways a line can parse, none of which depends on the index or
on the allocator: an error, a panic, or one entry per collected hostname. -/
theorem parseHostfileLine_shape (line : Str) :
    (∃ e, ∀ a i, parseHostfileLine a i line = .error e) ∨
    ((line ≠ [] ∧ TrimSpace line = []) ∧ ∀ a i, parseHostfileLine a i line = .panic) ∨
    (∃ ip comment hns, ip ≠ [] ∧ hns ≠ [] ∧ TrimSpace line ≠ [] ∧
      ∀ a i, parseHostfileLine a i line = .ok (mkEntries a i ip comment hns)) := by
  by_cases h0 : line = []
  · left
    exact ⟨.invalidLine, fun a i => by simp [parseHostfileLine, h0]⟩
  · have hlen : ¬ line.length ≤ 0 := by
      cases line with
      | nil => exact absurd rfl h0
      | cons a l => simp
    cases ht : TrimSpace line with
    | nil =>
      right; left
      refine ⟨⟨h0, rfl⟩, fun a i => ?_⟩
      unfold parseHostfileLine
      simp only [hlen, if_false, ht]
    | cons c t =>
      by_cases hc : c = '#'
      · left
        refine ⟨.commentLine, fun a i => ?_⟩
        unfold parseHostfileLine
        simp only [hlen, if_false, ht, hc, if_true]
      · have hdata := fun a i => parseHostfileLine_data a i line c t h0 ht hc
        generalize scanFields (Fields (c :: t)) 0 { ip := [], hostnames := [], commentidx := 0 }
          = st at hdata
        by_cases hbad : st.ip = [] ∨ st.hostnames.length = 0
        · left
          refine ⟨.invalidFields (c :: t), fun a i => ?_⟩
          rw [hdata a i, if_pos hbad]
        · right; right
          refine ⟨st.ip,
            (if st.commentidx > 0 then Join ((Fields (c :: t)).drop st.commentidx) [' '] else []),
            st.hostnames, fun h => hbad (Or.inl h), fun h => hbad (Or.inr (by simp [h])),
            List.cons_ne_nil _ _, fun a i => ?_⟩
          rw [hdata a i, if_neg hbad]

/-- A line panics exactly when it is non-empty and white space only. -/
theorem parseHostfileLine_panic_iff (a : Nat) (i : Int) (line : Str) :
    parseHostfileLine a i line = .panic ↔ line ≠ [] ∧ TrimSpace line = [] := by
  rcases parseHostfileLine_shape line with ⟨e, h⟩ | ⟨hb, h⟩ | ⟨ip, c, hns, _, _, ht, h⟩
  · rw [h a i]
    constructor
    · intro hp; cases hp
    · intro hb
      have hlen : ¬ line.length ≤ 0 := by
        cases line with
        | nil => exact absurd rfl hb.1
        | cons a l => simp
      have := h a i
      unfold parseHostfileLine at this
      simp only [hlen, if_false, hb.2] at this
      cases this
  · simp [h a i, hb]
  · rw [h a i]
    constructor
    · intro hp; cases hp
    · exact fun hb => absurd hb.2 ht

theorem mem_mkEntries_idx (a : Nat) (i : Int) (ip c : Str) (hns : List Str) (p : HostEntryPtr)
    (hp : p ∈ mkEntries a i ip c hns) : p.obj.idx = i := by
  have : p.obj ∈ (mkEntries a i ip c hns).map HostEntryPtr.obj := List.mem_map_of_mem _ hp
  rw [mkEntries_objs] at this
  obtain ⟨hn, _, hobj⟩ := List.mem_map.1 this
  rw [← hobj]

/-- Every entry of a successful parse carries the index passed in. -/
theorem parseHostfileLine_idx (a : Nat) (i : Int) (line : Str) (es : List HostEntryPtr)
    (hes : parseHostfileLine a i line = .ok es) : ∀ p ∈ es, p.obj.idx = i := by
  rcases parseHostfileLine_shape line with ⟨e, h⟩ | ⟨_, h⟩ | ⟨ip, c, hns, _, _, _, h⟩
  · rw [h a i] at hes; cases hes
  · rw [h a i] at hes; cases hes
  · rw [h a i] at hes
    injection hes with hes
    subst hes
    intro p hp
    exact mem_mkEntries_idx a i ip c hns p hp

/-- What a line yields can be read off any successful parse of it. -/
theorem Yields_iff_of_ok (filter : Str) (a : Nat) (i : Int) (line : Str)
    (es : List HostEntryPtr) (hes : parseHostfileLine a i line = .ok es) (e : HostEntry) :
    Yields filter i line e ↔ (∃ p ∈ es, p.obj = e) ∧ Admits filter e := by
  rcases parseHostfileLine_shape line with ⟨err, h⟩ | ⟨_, h⟩ | ⟨ip, c, hns, _, _, _, h⟩
  · rw [h a i] at hes; cases hes
  · rw [h a i] at hes; cases hes
  · rw [h a i] at hes
    injection hes with hes
    subst hes
    have hobj : ∀ b, (∃ p ∈ mkEntries b i ip c hns, p.obj = e) ↔
        e ∈ hns.map (fun hn => ({ idx := i, IP := ip, Hostname := hn, Comment := c } : HostEntry)) := by
      intro b
      rw [← mkEntries_objs b i ip c hns]
      simp [List.mem_map]
    constructor
    · rintro ⟨b, es, p, hb, hp, hpe, hadm⟩
      rw [h b i] at hb
      injection hb with hb
      subst hb
      exact ⟨(hobj a).2 ((hobj b).1 ⟨p, hp, hpe⟩), hadm⟩
    · rintro ⟨⟨p, hp, hpe⟩, hadm⟩
      exact ⟨a, _, p, h a i, hp, hpe, hadm⟩

/-- A line that does not parse yields nothing. -/
theorem not_Yields_of_error (filter : Str) (a : Nat) (i : Int) (line : Str) (err : ParseError)
    (hes : parseHostfileLine a i line = .error err) (e : HostEntry) :
    ¬ Yields filter i line e := by
  rintro ⟨b, es, p, hb, _⟩
  rcases parseHostfileLine_shape line with ⟨err2, h⟩ | ⟨_, h⟩ | ⟨ip, c, hns, _, _, _, h⟩
  · rw [h b i] at hb; cases hb
  · rw [h a i] at hes; cases hes
  · rw [h a i] at hes; cases hes

/-! ## The filter -/

theorem isPrefixOf_iff_append (a b : Str) : a.isPrefixOf b = true ↔ ∃ t, b = a ++ t := by
  induction a generalizing b with
  | nil => simp
  | cons x a ih =>
    cases b with
    | nil => simp [List.isPrefixOf]
    | cons y b =>
      simp only [List.isPrefixOf, Bool.and_eq_true, beq_iff_eq, ih, List.cons_append,
        List.cons.injEq]
      constructor
      · rintro ⟨hxy, t, ht⟩
        exact ⟨t, hxy.symm, ht⟩
      · rintro ⟨t, hxy, ht⟩
        exact ⟨hxy.symm, t, ht⟩

/-- The model of `strings.Contains` is true exactly when the second string
occurs in the first as a substring. -/
theorem Contains_iff_substring (s sub : Str) :
    Contains s sub = true ↔ ∃ pre post : Str, s = pre ++ sub ++ post := by
  induction s with
  | nil =>
    unfold Contains
    constructor
    · intro h
      have h0 : sub = [] := by simpa using h
      exact ⟨[], [], by simp [h0]⟩
    · rintro ⟨pre, post, h⟩
      have h0 : sub = [] := by
        have := congrArg List.length h
        simp only [List.length_nil, List.length_append] at this
        exact List.length_eq_zero.1 (by omega)
      simp [h0]
  | cons c cs ih =>
    unfold Contains
    rw [Bool.or_eq_true, isPrefixOf_iff_append, ih]
    constructor
    · rintro (⟨t, ht⟩ | ⟨pre, post, h⟩)
      · exact ⟨[], t, by simpa using ht⟩
      · exact ⟨c :: pre, post, by simp [h]⟩
    · rintro ⟨pre, post, h⟩
      cases pre with
      | nil => exact Or.inl ⟨post, by simpa using h⟩
      | cons x pre1 =>
        right
        simp only [List.cons_append, List.cons.injEq] at h
        exact ⟨pre1, post, h.2⟩

/-- The test `h.filter == "" || strings.Contains(e.Comment, h.filter)` of
`loadAndParse` is true exactly for the entries that pass the filter. -/
theorem Admits_iff_test (filter : Str) (e : HostEntry) :
    Admits filter e ↔ (filter = [] ∨ Contains e.Comment filter = true) := by
  unfold Admits
  rw [Contains_iff_substring]

/-! ## Loading -/

theorem admitEntries_filter (h : HostsAPI) (es : List HostEntryPtr) :
    (admitEntries h es).filter = h.filter ∧ (admitEntries h es).hostsfile = h.hostsfile := by
  induction es generalizing h with
  | nil => exact ⟨rfl, rfl⟩
  | cons e es ih =>
    unfold admitEntries
    split
    · exact ih _
    · exact ih _

/-- The entries map after the inner loop of `loadAndParse`: a key is taken
over by an admitted entry of the line if there is one, and is left alone
otherwise. -/
theorem admitEntries_entries (h : HostsAPI) (es : List HostEntryPtr) (name : Str) :
    (∃ p ∈ es, Admits h.filter p.obj ∧ p.obj.Hostname = name ∧
      (admitEntries h es).entries name = some p) ∨
    ((∀ p ∈ es, Admits h.filter p.obj → p.obj.Hostname ≠ name) ∧
      (admitEntries h es).entries name = h.entries name) := by
  induction es generalizing h with
  | nil => right; exact ⟨fun p hp => absurd hp (List.not_mem_nil p), rfl⟩
  | cons e es ih =>
    unfold admitEntries
    by_cases hadm : h.filter = [] ∨ Contains e.obj.Comment h.filter = true
    · rw [if_pos hadm]
      rcases ih { h with entries := mapSet h.entries e.obj.Hostname e,
                         remidxs := setInsert h.remidxs e.obj.idx } with
        ⟨p, hp, ha, hn, hr⟩ | ⟨hno, hr⟩
      · left; exact ⟨p, List.mem_cons_of_mem _ hp, ha, hn, hr⟩
      · by_cases hname : name = e.obj.Hostname
        · left
          refine ⟨e, List.mem_cons_self _ _, (Admits_iff_test _ _).2 hadm, hname.symm, ?_⟩
          rw [hr, hname]
          exact mapSet_same _ _ _
        · right
          refine ⟨?_, ?_⟩
          · intro p hp ha
            rcases List.mem_cons.1 hp with h1 | h1
            · subst h1; exact fun hh => hname hh.symm
            · exact hno p h1 ha
          · rw [hr]
            exact mapSet_other _ _ _ _ hname
    · rw [if_neg hadm]
      rcases ih h with ⟨p, hp, ha, hn, hr⟩ | ⟨hno, hr⟩
      · left; exact ⟨p, List.mem_cons_of_mem _ hp, ha, hn, hr⟩
      · right
        refine ⟨?_, hr⟩
        intro p hp ha
        rcases List.mem_cons.1 hp with h1 | h1
        · subst h1; exact absurd ((Admits_iff_test _ _).1 ha) hadm
        · exact hno p h1 ha

/-- The owned-line set after the inner loop of `loadAndParse`. -/
theorem admitEntries_remidxs (h : HostsAPI) (es : List HostEntryPtr) (j : Int) :
    (admitEntries h es).remidxs j = true ↔
      h.remidxs j = true ∨ ∃ p ∈ es, Admits h.filter p.obj ∧ p.obj.idx = j := by
  induction es generalizing h with
  | nil => simp [admitEntries]
  | cons e es ih =>
    unfold admitEntries
    by_cases hadm : h.filter = [] ∨ Contains e.obj.Comment h.filter = true
    · rw [if_pos hadm, ih]
      simp only [setInsert]
      constructor
      · rintro (h1 | ⟨p, hp, ha, hi⟩)
        · by_cases hj : j = e.obj.idx
          · right; exact ⟨e, List.mem_cons_self _ _, (Admits_iff_test _ _).2 hadm, hj.symm⟩
          · left; simpa [hj] using h1
        · right; exact ⟨p, List.mem_cons_of_mem _ hp, ha, hi⟩
      · rintro (h1 | ⟨p, hp, ha, hi⟩)
        · left
          by_cases hj : j = e.obj.idx
          · simp [hj]
          · simpa [hj] using h1
        · rcases List.mem_cons.1 hp with h2 | h2
          · subst h2; left; simp [hi]
          · right; exact ⟨p, h2, ha, hi⟩
    · rw [if_neg hadm, ih]
      constructor
      · rintro (h1 | ⟨p, hp, ha, hi⟩)
        · exact Or.inl h1
        · right; exact ⟨p, List.mem_cons_of_mem _ hp, ha, hi⟩
      · rintro (h1 | ⟨p, hp, ha, hi⟩)
        · exact Or.inl h1
        · rcases List.mem_cons.1 hp with h2 | h2
          · subst h2; exact absurd ((Admits_iff_test _ _).1 ha) hadm
          · right; exact ⟨p, h2, ha, hi⟩

/-- The loop of `loadAndParse` returns unless some line panics. -/
theorem loadLoop_ok_of_no_blank (lines : List Str) (idx : Int) (alloc : Nat) (h : HostsAPI)
    (hlines : ∀ l ∈ lines, l = [] ∨ TrimSpace l ≠ []) :
    ∃ h2 alloc2, loadLoop lines idx alloc h = .ok (h2, alloc2) := by
  induction lines generalizing idx alloc h with
  | nil => exact ⟨h, alloc, rfl⟩
  | cons l rest ih =>
    have hrest : ∀ m ∈ rest, m = [] ∨ TrimSpace m ≠ [] :=
      fun m hm => hlines m (List.mem_cons_of_mem _ hm)
    unfold loadLoop
    cases hp : parseHostfileLine alloc idx l with
    | ok es => exact ih _ _ _ hrest
    | error e => exact ih _ _ _ hrest
    | panic =>
      have := (parseHostfileLine_panic_iff alloc idx l).1 hp
      rcases hlines l (List.mem_cons_self _ _) with h1 | h1
      · exact absurd h1 this.1
      · exact absurd this.2 h1

/-- The loop of `loadAndParse` panics as soon as one line is non-empty and
white space only. -/
theorem loadLoop_panic_of_blank (lines : List Str) (idx : Int) (alloc : Nat) (h : HostsAPI)
    (l : Str) (hl : l ∈ lines) (hl0 : l ≠ []) (hl1 : TrimSpace l = []) :
    loadLoop lines idx alloc h = .panic := by
  induction lines generalizing idx alloc h with
  | nil => exact absurd hl (List.not_mem_nil l)
  | cons m rest ih =>
    unfold loadLoop
    cases hp : parseHostfileLine alloc idx m with
    | panic => rfl
    | ok es =>
      rcases List.mem_cons.1 hl with h1 | h1
      · subst h1
        rw [(parseHostfileLine_panic_iff alloc idx l).2 ⟨hl0, hl1⟩] at hp
        cases hp
      · exact ih _ _ _ h1
    | error e =>
      rcases List.mem_cons.1 hl with h1 | h1
      · subst h1
        rw [(parseHostfileLine_panic_iff alloc idx l).2 ⟨hl0, hl1⟩] at hp
        cases hp
      · exact ih _ _ _ h1

theorem loadLoop_filter (lines : List Str) (idx : Int) (alloc : Nat) (h h2 : HostsAPI)
    (alloc2 : Nat) (hload : loadLoop lines idx alloc h = .ok (h2, alloc2)) :
    h2.filter = h.filter ∧ h2.hostsfile = h.hostsfile := by
  induction lines generalizing idx alloc h with
  | nil =>
    simp only [loadLoop, Result.ok.injEq, Prod.mk.injEq] at hload
    rw [← hload.1]
    exact ⟨rfl, rfl⟩
  | cons l rest ih =>
    unfold loadLoop at hload
    cases hp : parseHostfileLine alloc idx l with
    | panic => rw [hp] at hload; cases hload
    | error e =>
      rw [hp] at hload
      exact ih _ _ _ hload
    | ok es =>
      rw [hp] at hload
      have := ih _ _ _ hload
      rw [(admitEntries_filter h es).1, (admitEntries_filter h es).2] at this
      exact this

theorem idx_succ_cast (idx : Int) (k : Nat) : idx + 1 + (k : Int) = idx + ((k + 1 : Nat) : Int) := by
  push_cast; ring

/-- The entries map after the loop of `loadAndParse`: each key holds an
admitted entry of the last line that yields one for it, and keeps its old
value when no line does. -/
theorem loadLoop_entries (lines : List Str) (idx : Int) (alloc : Nat) (h h2 : HostsAPI)
    (alloc2 : Nat) (hload : loadLoop lines idx alloc h = .ok (h2, alloc2)) (name : Str) :
    (∃ (k : Nat) (line : Str) (p : HostEntryPtr), lines[k]? = some line ∧ Yields h.filter (idx + (k : Int)) line p.obj ∧
      p.obj.Hostname = name ∧ h2.entries name = some p ∧
      ∀ (k2 : Nat) (line2 : Str) (e2 : HostEntry), k < k2 → lines[k2]? = some line2 →
        Yields h.filter (idx + (k2 : Int)) line2 e2 → e2.Hostname ≠ name) ∨
    ((∀ (k : Nat) (line : Str) (e : HostEntry), lines[k]? = some line → Yields h.filter (idx + (k : Int)) line e →
        e.Hostname ≠ name) ∧
      h2.entries name = h.entries name) := by
  induction lines generalizing idx alloc h with
  | nil =>
    simp only [loadLoop, Result.ok.injEq, Prod.mk.injEq] at hload
    obtain ⟨rfl, rfl⟩ := hload
    right
    exact ⟨fun k line e hk => by simp at hk, rfl⟩
  | cons l rest ih =>
    unfold loadLoop at hload
    -- what the induction hypothesis gives once the first line is dealt with
    have step : ∀ (a1 : Nat) (h1 : HostsAPI), h1.filter = h.filter →
        loadLoop rest (idx + 1) a1 h1 = .ok (h2, alloc2) →
        (∃ (k : Nat) (line : Str) (p : HostEntryPtr), (l :: rest)[k]? = some line ∧ Yields h.filter (idx + (k : Int)) line p.obj ∧
          p.obj.Hostname = name ∧ h2.entries name = some p ∧
          ∀ (k2 : Nat) (line2 : Str) (e2 : HostEntry), k < k2 → (l :: rest)[k2]? = some line2 →
            Yields h.filter (idx + (k2 : Int)) line2 e2 → e2.Hostname ≠ name) ∨
        ((∀ (k : Nat) (line : Str) (e : HostEntry), rest[k]? = some line → Yields h.filter (idx + ((k + 1 : Nat) : Int)) line e →
            e.Hostname ≠ name) ∧
          h2.entries name = h1.entries name) := by
      intro a1 h1 hf hl
      rcases ih (idx + 1) a1 h1 hl with ⟨k, line, p, hk, hy, hn, hr, hlater⟩ | ⟨hno, hr⟩
      · left
        refine ⟨k + 1, line, p, by simpa using hk, ?_, hn, hr, ?_⟩
        · rw [← idx_succ_cast, ← hf]; exact hy
        · intro k2 line2 e2 hlt hk2 hy2
          cases k2 with
          | zero => omega
          | succ k3 =>
            apply hlater k3 line2 e2 (by omega) (by simpa using hk2)
            rw [idx_succ_cast, hf]; exact hy2
      · right
        refine ⟨?_, hr⟩
        intro k line e hk hy
        apply hno k line e hk
        rw [idx_succ_cast, hf]; exact hy
    cases hp : parseHostfileLine alloc idx l with
    | panic => rw [hp] at hload; cases hload
    | error err =>
      rw [hp] at hload
      rcases step alloc h rfl hload with hleft | ⟨hno, hr⟩
      · exact Or.inl hleft
      · right
        refine ⟨?_, hr⟩
        intro k line e hk hy
        cases k with
        | zero =>
          simp only [List.getElem?_cons_zero, Option.some.injEq] at hk
          subst hk
          simp only [Nat.cast_zero, add_zero] at hy
          exact absurd hy (not_Yields_of_error _ alloc idx _ err hp e)
        | succ k3 => exact hno k3 line e (by simpa using hk) hy
    | ok es =>
      rw [hp] at hload
      rcases step _ (admitEntries h es) (admitEntries_filter h es).1 hload with
        hleft | ⟨hno, hr⟩
      · exact Or.inl hleft
      · rcases admitEntries_entries h es name with ⟨p, hpm, ha, hn, hr1⟩ | ⟨hno1, hr1⟩
        · left
          refine ⟨0, l, p, by simp, ?_, hn, by rw [hr, hr1], ?_⟩
          · simp only [Nat.cast_zero, add_zero]
            exact ⟨alloc, es, p, hp, hpm, rfl, ha⟩
          · intro k2 line2 e2 hlt hk2 hy2
            cases k2 with
            | zero => omega
            | succ k3 => exact hno k3 line2 e2 (by simpa using hk2) hy2
        · right
          refine ⟨?_, by rw [hr, hr1]⟩
          intro k line e hk hy
          cases k with
          | zero =>
            simp only [List.getElem?_cons_zero, Option.some.injEq] at hk
            subst hk
            simp only [Nat.cast_zero, add_zero] at hy
            obtain ⟨⟨p, hpm, hpe⟩, ha⟩ := (Yields_iff_of_ok _ alloc idx _ es hp e).1 hy
            subst hpe
            exact hno1 p hpm ha
          | succ k3 => exact hno k3 line e (by simpa using hk) hy

/-- The owned-line set after the loop of `loadAndParse`: the old members and
the indices of the lines that yield an admitted entry. -/
theorem loadLoop_remidxs (lines : List Str) (idx : Int) (alloc : Nat) (h h2 : HostsAPI)
    (alloc2 : Nat) (hload : loadLoop lines idx alloc h = .ok (h2, alloc2)) (j : Int) :
    h2.remidxs j = true ↔
      h.remidxs j = true ∨
      ∃ (k : Nat) (line : Str) (e : HostEntry), lines[k]? = some line ∧ idx + (k : Int) = j ∧
        Yields h.filter (idx + (k : Int)) line e := by
  induction lines generalizing idx alloc h with
  | nil =>
    simp only [loadLoop, Result.ok.injEq, Prod.mk.injEq] at hload
    obtain ⟨rfl, rfl⟩ := hload
    simp
  | cons l rest ih =>
    unfold loadLoop at hload
    have shift : (∃ (k : Nat) (line : Str) (e : HostEntry), rest[k]? = some line ∧ idx + 1 + (k : Int) = j ∧
          Yields h.filter (idx + 1 + (k : Int)) line e) ↔
        ∃ (k : Nat) (line : Str) (e : HostEntry), (l :: rest)[k + 1]? = some line ∧ idx + ((k + 1 : Nat) : Int) = j ∧
          Yields h.filter (idx + ((k + 1 : Nat) : Int)) line e := by
      constructor
      · rintro ⟨k, line, e, hk, hj, hy⟩
        exact ⟨k, line, e, by simpa using hk, by rw [← idx_succ_cast]; exact hj,
          by rw [← idx_succ_cast]; exact hy⟩
      · rintro ⟨k, line, e, hk, hj, hy⟩
        exact ⟨k, line, e, by simpa using hk, by rw [idx_succ_cast]; exact hj,
          by rw [idx_succ_cast]; exact hy⟩
    have split0 : (∃ (k : Nat) (line : Str) (e : HostEntry), (l :: rest)[k]? = some line ∧ idx + (k : Int) = j ∧
          Yields h.filter (idx + (k : Int)) line e) ↔
        (idx = j ∧ ∃ e, Yields h.filter idx l e) ∨
        ∃ (k : Nat) (line : Str) (e : HostEntry), (l :: rest)[k + 1]? = some line ∧ idx + ((k + 1 : Nat) : Int) = j ∧
          Yields h.filter (idx + ((k + 1 : Nat) : Int)) line e := by
      constructor
      · rintro ⟨k, line, e, hk, hj, hy⟩
        cases k with
        | zero =>
          simp only [List.getElem?_cons_zero, Option.some.injEq] at hk
          subst hk
          simp only [Nat.cast_zero, add_zero] at hj hy
          exact Or.inl ⟨hj, e, hy⟩
        | succ k3 => exact Or.inr ⟨k3, line, e, hk, hj, hy⟩
      · rintro (⟨hj, e, hy⟩ | ⟨k, line, e, hk, hj, hy⟩)
        · exact ⟨0, l, e, by simp, by simpa using hj, by simpa using hy⟩
        · exact ⟨k + 1, line, e, hk, hj, hy⟩
    cases hp : parseHostfileLine alloc idx l with
    | panic => rw [hp] at hload; cases hload
    | error err =>
      rw [hp] at hload
      rw [ih _ _ _ hload, split0, shift]
      have : ¬ (idx = j ∧ ∃ e, Yields h.filter idx l e) :=
        fun hh => hh.2.elim fun e hy => not_Yields_of_error _ alloc idx _ err hp e hy
      simp only [this, false_or]
    | ok es =>
      rw [hp] at hload
      rw [ih _ _ _ hload, split0, (admitEntries_filter h es).1, shift, admitEntries_remidxs]
      have : (∃ p ∈ es, Admits h.filter p.obj ∧ p.obj.idx = j) ↔
          (idx = j ∧ ∃ e, Yields h.filter idx l e) := by
        constructor
        · rintro ⟨p, hpm, ha, hi⟩
          refine ⟨?_, p.obj, alloc, es, p, hp, hpm, rfl, ha⟩
          rw [← hi, parseHostfileLine_idx alloc idx l es hp p hpm]
        · rintro ⟨hj, e, hy⟩
          obtain ⟨⟨p, hpm, hpe⟩, ha⟩ := (Yields_iff_of_ok _ alloc idx _ es hp e).1 hy
          subst hpe
          exact ⟨p, hpm, ha, by rw [parseHostfileLine_idx alloc idx l es hp p hpm, hj]⟩
      rw [this, or_assoc]

/-- The entries map a load returns: each key holds an admitted entry of the
last line that yields one for it, and a key no line yields an entry for is
absent. -/
theorem loadAndParse_entries (filter : Str) (data : Str) (alloc : Nat) (h : HostsAPI)
    (alloc2 : Nat) (hload : loadAndParse (newAPI filter data) alloc = .ok (h, alloc2))
    (name : Str) :
    (∃ (k : Nat) (line : Str) (p : HostEntryPtr), (scanLines data)[k]? = some line ∧
      Yields filter (k : Int) line p.obj ∧ p.obj.Hostname = name ∧ h.entries name = some p ∧
      ∀ (k2 : Nat) (line2 : Str) (e2 : HostEntry), k < k2 → (scanLines data)[k2]? = some line2 →
        Yields filter (k2 : Int) line2 e2 → e2.Hostname ≠ name) ∨
    ((∀ (k : Nat) (line : Str) (e : HostEntry), (scanLines data)[k]? = some line →
        Yields filter (k : Int) line e → e.Hostname ≠ name) ∧
      h.entries name = none) := by
  have hent := loadLoop_entries (scanLines data) 0 alloc (newAPI filter data) h alloc2 hload name
  simp only [zero_add] at hent
  exact hent

/-- The owned-line set a load returns: the indices of the lines that yield an
admitted entry. -/
theorem loadAndParse_remidxs (filter : Str) (data : Str) (alloc : Nat) (h : HostsAPI)
    (alloc2 : Nat) (hload : loadAndParse (newAPI filter data) alloc = .ok (h, alloc2))
    (j : Int) :
    h.remidxs j = true ↔
      ∃ (k : Nat) (line : Str) (e : HostEntry), (scanLines data)[k]? = some line ∧ (k : Int) = j ∧
        Yields filter (k : Int) line e := by
  have hrem := loadLoop_remidxs (scanLines data) 0 alloc (newAPI filter data) h alloc2 hload j
  simp only [zero_add] at hrem
  rw [hrem]
  have hr : (newAPI filter data).remidxs j = false := rfl
  have hf : (newAPI filter data).filter = filter := rfl
  rw [hr, hf]
  simp

/-- The filtered load on the lines the scanner yields: after a load that
returned, a hostname is a key of the store exactly when some line the scanner
yielded gives an admitted entry for it; the entry stored is one the last such
line gives; and the owned-line set is exactly the set of indices of the lines
yielded that give an admitted entry.  The lines of the file behind a line
that does not fit the scanner are not among them. -/
theorem loadAndParse_filtered (filter : Str) (data : Str) (alloc : Nat) (h : HostsAPI)
    (alloc2 : Nat) (hload : loadAndParse (newAPI filter data) alloc = .ok (h, alloc2)) :
    (∀ name, (h.entries name).isSome = true ↔
      ∃ (k : Nat) (line : Str) (e : HostEntry), (scanLines data)[k]? = some line ∧
        Yields filter (k : Int) line e ∧ e.Hostname = name) ∧
    (∀ name p, h.entries name = some p →
      ∃ (k : Nat) (line : Str), (scanLines data)[k]? = some line ∧ Yields filter (k : Int) line p.obj ∧
        p.obj.Hostname = name ∧
        ∀ (k2 : Nat) (line2 : Str) (e2 : HostEntry), k < k2 → (scanLines data)[k2]? = some line2 →
          Yields filter (k2 : Int) line2 e2 → e2.Hostname ≠ name) ∧
    (∀ j : Int, h.remidxs j = true ↔
      ∃ (k : Nat) (line : Str) (e : HostEntry), (scanLines data)[k]? = some line ∧ (k : Int) = j ∧
        Yields filter (k : Int) line e) := by
  have hent := loadAndParse_entries filter data alloc h alloc2 hload
  refine ⟨?_, ?_, loadAndParse_remidxs filter data alloc h alloc2 hload⟩
  · intro name
    rcases hent name with ⟨k, line, p, hk, hy, hn, hs, _⟩ | ⟨hno, hs⟩
    · rw [hs]
      simp only [Option.isSome_some, true_iff]
      exact ⟨k, line, p.obj, hk, hy, hn⟩
    · rw [hs]
      simp only [Option.isSome_none, Bool.false_eq_true, false_iff]
      rintro ⟨k, line, e, hk, hy, hn⟩
      exact hno k line e hk hy hn
  · intro name p hp
    rcases hent name with ⟨k, line, q, hk, hy, hn, hs, hlater⟩ | ⟨_, hs⟩
    · rw [hs] at hp
      injection hp with hp
      subst hp
      exact ⟨k, line, hk, hy, hn, hlater⟩
    · rw [hs] at hp
      cases hp

/-- The load of `sampleData` under the filter `managed by api` returns, and
`loadAndParse_filtered` describes the store it returns. -/
theorem loadAndParse_filtered_example :
    loadAndParse (newAPI "managed by api".toList sampleData) 0 =
      .ok (loaded "managed by api".toList sampleData, 4) ∧
    (∀ name, ((loaded "managed by api".toList sampleData).entries name).isSome = true ↔
      ∃ (k : Nat) (line : Str) (e : HostEntry), (scanLines sampleData)[k]? = some line ∧
        Yields "managed by api".toList (k : Int) line e ∧ e.Hostname = name) ∧
    (∀ name p, (loaded "managed by api".toList sampleData).entries name = some p →
      ∃ (k : Nat) (line : Str), (scanLines sampleData)[k]? = some line ∧
        Yields "managed by api".toList (k : Int) line p.obj ∧ p.obj.Hostname = name ∧
        ∀ (k2 : Nat) (line2 : Str) (e2 : HostEntry), k < k2 → (scanLines sampleData)[k2]? = some line2 →
          Yields "managed by api".toList (k2 : Int) line2 e2 → e2.Hostname ≠ name) ∧
    (∀ j : Int, (loaded "managed by api".toList sampleData).remidxs j = true ↔
      ∃ (k : Nat) (line : Str) (e : HostEntry), (scanLines sampleData)[k]? = some line ∧ (k : Int) = j ∧
        Yields "managed by api".toList (k : Int) line e) :=
  ⟨rfl, loadAndParse_filtered "managed by api".toList sampleData 0
    (loaded "managed by api".toList sampleData) 4 rfl⟩

/-- C5 (the code at the failing input): a file whose second line consists of
two spaces makes `loadAndParse` panic; the load does not complete and the
third line is never read. -/
theorem loadAndParse_blank_line_panics :
    loadAndParse
      (newAPI [] "127.0.0.1 localhost\n  \n10.0.0.5 vm1 # managed by api\n".toList) 0 =
        .panic := by
  rfl

/-- The load returns exactly when no line the scanner yields is non-empty and
white space only. -/
theorem loadAndParse_returns_iff (h : HostsAPI) (alloc : Nat) :
    (∃ h2 alloc2, loadAndParse h alloc = .ok (h2, alloc2)) ↔
      ∀ l ∈ scanLines h.hostsfile, l = [] ∨ TrimSpace l ≠ [] := by
  constructor
  · rintro ⟨h2, alloc2, hl⟩ l hmem
    by_cases h0 : l = []
    · exact Or.inl h0
    · right
      intro ht
      have := loadLoop_panic_of_blank (scanLines h.hostsfile) 0 alloc h l hmem h0 ht
      unfold loadAndParse at hl
      rw [this] at hl
      cases hl
  · intro hall
    exact loadLoop_ok_of_no_blank (scanLines h.hostsfile) 0 alloc h hall

/-! ## Writing -/

/-- No client call touches the owned-line set, the open file or the filter. -/
theorem applyOp_frame (h : HostsAPI) (op : Op) :
    (applyOp h op).remidxs = h.remidxs ∧ (applyOp h op).hostsfile = h.hostsfile ∧
      (applyOp h op).filter = h.filter := by
  cases op with
  | add e =>
    cases hk : h.entries e.obj.Hostname <;> simp [applyOp, AddEntry, hk]
  | remove n =>
    cases hk : h.entries n <;> simp [applyOp, RemoveEntry, hk]
  | upsert e =>
    cases hk : h.entries e.obj.Hostname with
    | none => simp [applyOp, IsUpsertEntry, hk]
    | some old =>
      by_cases hp : old.addr = e.addr <;> simp [applyOp, IsUpsertEntry, hk, hp]

theorem applyOps_frame (h : HostsAPI) (ops : List Op) :
    (applyOps h ops).remidxs = h.remidxs ∧ (applyOps h ops).hostsfile = h.hostsfile ∧
      (applyOps h ops).filter = h.filter := by
  induction ops generalizing h with
  | nil => exact ⟨rfl, rfl, rfl⟩
  | cons op ops ih =>
    have h1 := ih (applyOp h op)
    have h2 := applyOp_frame h op
    simp only [applyOps, List.foldl_cons] at h1 ⊢
    exact ⟨h1.1.trans h2.1, h1.2.1.trans h2.2.1, h1.2.2.trans h2.2.2⟩

/-- The second loop of `Write` emits the formatted entries of the keys
visited, in the order visited. -/
theorem appendEntries_eq (entries : Str → Option HostEntryPtr) (order : List Str) :
    appendEntries entries order =
      ((order.filterMap entries).map (fun p => formatEntry p.obj)).flatten := by
  induction order with
  | nil => rfl
  | cons k ks ih =>
    unfold appendEntries
    cases hk : entries k with
    | none => simp [List.filterMap_cons, hk, ih]
    | some e => simp [List.filterMap_cons, hk, ih]

/-- A line is owned exactly when it yields an admitted entry. -/
theorem ownedLine_iff (filter : Str) (i : Int) (line : Str) :
    ownedLine filter i line = true ↔ ∃ e, Yields filter i line e := by
  unfold ownedLine
  cases hp : parseHostfileLine 0 i line with
  | panic =>
    simp only [Bool.false_eq_true, false_iff]
    rintro ⟨e, b, es, p, hb, _⟩
    have h1 := (parseHostfileLine_panic_iff 0 i line).1 hp
    have h2 := (parseHostfileLine_panic_iff b i line).2 h1
    rw [h2] at hb
    cases hb
  | error err =>
    simp only [Bool.false_eq_true, false_iff]
    rintro ⟨e, hy⟩
    exact not_Yields_of_error filter 0 i line err hp e hy
  | ok es =>
    simp only [List.any_eq_true, decide_eq_true_eq]
    constructor
    · rintro ⟨p, hpm, ha⟩
      exact ⟨p.obj, 0, es, p, hp, hpm, rfl, ha⟩
    · rintro ⟨e, hy⟩
      obtain ⟨⟨p, hpm, hpe⟩, ha⟩ := (Yields_iff_of_ok filter 0 i line es hp e).1 hy
      subst hpe
      exact ⟨p, hpm, ha⟩

/-- The first loop of `Write` copies, each with CR LF after it, the lines
whose index is not in the owned-line set. -/
theorem replayLines_eq (rem : Int → Bool) (filter : Str) (lines : List Str) (n : Nat)
    (hrem : ∀ (k : Nat) (line : Str), lines[k]? = some line →
      (rem ((n + k : Nat) : Int) = true ↔ ownedLine filter ((n + k : Nat) : Int) line = true)) :
    replayLines rem lines (n : Int) =
      ((((lines.enumFrom n).filter (fun p => !ownedLine filter (p.1 : Int) p.2)).map
        Prod.snd).map (fun l => l ++ ['\r', '\n'])).flatten := by
  induction lines generalizing n with
  | nil => rfl
  | cons l rest ih =>
    have h0 := hrem 0 l (by simp)
    have hrest : ∀ (k : Nat) (line : Str), rest[k]? = some line →
        (rem ((n + 1 + k : Nat) : Int) = true ↔
          ownedLine filter ((n + 1 + k : Nat) : Int) line = true) := by
      intro k line hk
      have := hrem (k + 1) line (by simpa using hk)
      have e : n + (k + 1) = n + 1 + k := by omega
      rw [e] at this
      exact this
    have ih2 := ih (n + 1) hrest
    have hcast : ((n + 1 : Nat) : Int) = (n : Int) + 1 := by push_cast; rfl
    rw [hcast] at ih2
    simp only [Nat.add_zero] at h0
    unfold replayLines
    rw [List.enumFrom_cons, List.filter_cons]
    by_cases hown : ownedLine filter (n : Int) l = true
    · rw [if_pos (h0.2 hown), ih2]
      simp [hown]
    · have hr : ¬ rem (n : Int) = true := fun hh => hown (h0.1 hh)
      rw [if_neg hr, ih2]
      simp [hown]

/-- The first loop of `Write` after a load: the lines that are not owned,
each followed by CR LF. -/
theorem replayLines_loaded (filter : Str) (data : Str) (alloc : Nat) (h : HostsAPI)
    (alloc2 : Nat) (hload : loadAndParse (newAPI filter data) alloc = .ok (h, alloc2)) :
    replayLines h.remidxs (scanLines data) 0 =
      ((keptLines filter (scanLines data)).map (fun l => l ++ ['\r', '\n'])).flatten := by
  have hrem := loadAndParse_remidxs filter data alloc h alloc2 hload
  have := replayLines_eq h.remidxs filter (scanLines data) 0 (by
    intro k line hk
    rw [hrem, ownedLine_iff]
    simp only [zero_add]
    constructor
    · rintro ⟨k2, line2, e, hk2, hj, hy⟩
      have hkk : k2 = k := by exact_mod_cast hj
      subst hkk
      rw [hk] at hk2
      injection hk2 with hk2
      subst hk2
      exact ⟨e, hy⟩
    · rintro ⟨e, hy⟩
      exact ⟨k, line, e, hk, rfl, hy⟩)
  simpa [keptLines, List.enum] using this

/-- The load leaves the open file as it is. -/
theorem loadAndParse_hostsfile (filter : Str) (data : Str) (alloc : Nat) (h : HostsAPI)
    (alloc2 : Nat) (hload : loadAndParse (newAPI filter data) alloc = .ok (h, alloc2)) :
    h.hostsfile = data ∧ h.filter = filter :=
  ⟨(loadLoop_filter (scanLines data) 0 alloc (newAPI filter data) h alloc2 hload).2,
   (loadLoop_filter (scanLines data) 0 alloc (newAPI filter data) h alloc2 hload).1⟩

/-- Ownership isolation on the lines the scanner yields: after a load that
returned and any sequence of `AddEntry`, `RemoveEntry` and `IsUpsertEntry`
calls, the buffer `Write` builds begins with exactly the lines the scanner
yielded that are not owned (those that fail to parse or whose entries do not
pass the filter), in their original order, unchanged and each followed by
CR LF; all the regenerated lines come after them.  The lines of the file
behind a line that does not fit the scanner are not among them. -/
theorem Write_outbuf_keeps_unowned_lines (filter : Str) (data : Str) (alloc : Nat)
    (h : HostsAPI) (alloc2 : Nat) (ops : List Op) (order : List Str)
    (hload : loadAndParse (newAPI filter data) alloc = .ok (h, alloc2)) :
    Write_outbuf (applyOps h ops) order =
      ((keptLines filter (scanLines data)).map (fun l => l ++ ['\r', '\n'])).flatten ++
      ((order.filterMap (applyOps h ops).entries).map (fun p => formatEntry p.obj)).flatten := by
  have hfile : h.hostsfile = data :=
    (loadAndParse_hostsfile filter data alloc h alloc2 hload).1
  unfold Write_outbuf
  rw [appendEntries_eq, (applyOps_frame h ops).1, (applyOps_frame h ops).2.1, hfile]
  congr 1
  exact replayLines_loaded filter data alloc h alloc2 hload

/-- The hosts file `sampleData` loaded under the filter `managed by api`,
changed by `sampleOps` and written with the keys visited in the order vm9,
vm1: the three lines that were not owned come first, unchanged. -/
theorem Write_outbuf_keeps_unowned_lines_example :
    loadAndParse (newAPI "managed by api".toList sampleData) 0 =
      .ok (loaded "managed by api".toList sampleData, 4) ∧
    Write_outbuf (applyOps (loaded "managed by api".toList sampleData) sampleOps)
        ["vm9".toList, "vm1".toList] =
      ((keptLines "managed by api".toList (scanLines sampleData)).map
        (fun l => l ++ ['\r', '\n'])).flatten ++
      ((["vm9".toList, "vm1".toList].filterMap
        (applyOps (loaded "managed by api".toList sampleData) sampleOps).entries).map
          (fun p => formatEntry p.obj)).flatten ∧
    keptLines "managed by api".toList (scanLines sampleData) =
      ["127.0.0.1 localhost".toList, "# static entries".toList, []] ∧
    Write_outbuf (applyOps (loaded "managed by api".toList sampleData) sampleOps)
        ["vm9".toList, "vm1".toList] =
      "127.0.0.1 localhost\r\n# static entries\r\n\r\n".toList ++
        "10.0.0.9 vm9    # managed by api\r\n10.0.0.7 vm1\r\n".toList :=
  ⟨rfl,
   Write_outbuf_keeps_unowned_lines "managed by api".toList sampleData 0
     (loaded "managed by api".toList sampleData) 4 sampleOps ["vm9".toList, "vm1".toList] rfl,
   by decide, by decide⟩

/-! ## What the parser returns, and parsing what `Write` emits -/

/-- Every field `strings.Fields` returns is a token. -/
theorem fieldsFrom_tokens (s cur : Str) (hcur : ∀ c ∈ cur, isSpace c = false) :
    ∀ f ∈ fieldsFrom s cur, IsToken f := by
  induction s generalizing cur with
  | nil =>
    intro f hf
    unfold fieldsFrom at hf
    by_cases h0 : cur = []
    · simp [h0] at hf
    · simp only [h0, if_false, List.mem_singleton] at hf
      subst hf
      exact ⟨h0, hcur⟩
  | cons c cs ih =>
    intro f hf
    unfold fieldsFrom at hf
    by_cases hc : isSpace c = true
    · simp only [hc, if_true] at hf
      by_cases h0 : cur = []
      · simp only [h0, if_true] at hf
        exact ih [] (fun d hd => absurd hd (List.not_mem_nil d)) f hf
      · simp only [h0, if_false, List.mem_cons] at hf
        rcases hf with hf | hf
        · subst hf
          exact ⟨h0, hcur⟩
        · exact ih [] (fun d hd => absurd hd (List.not_mem_nil d)) f hf
    · simp only [hc] at hf
      apply ih (cur ++ [c]) _ f hf
      intro d hd
      rcases List.mem_append.1 hd with h1 | h1
      · exact hcur d h1
      · simp only [List.mem_singleton] at h1
        subst h1
        simpa using hc

theorem Fields_tokens (s : Str) : ∀ f ∈ Fields s, IsToken f :=
  fieldsFrom_tokens s [] (fun d hd => absurd hd (List.not_mem_nil d))

/-- The field loop only ever stores fields that do not begin with `#`. -/
theorem scanFields_inv (fs : List Str) (i : Nat) (st : FieldScan) (hfs : ∀ f ∈ fs, IsToken f)
    (hip : st.ip = [] ∨ (IsToken st.ip ∧ st.ip.head? ≠ some '#'))
    (hhs : ∀ t ∈ st.hostnames, IsToken t ∧ t.head? ≠ some '#') :
    ((scanFields fs i st).ip = [] ∨
      (IsToken (scanFields fs i st).ip ∧ (scanFields fs i st).ip.head? ≠ some '#')) ∧
    ∀ t ∈ (scanFields fs i st).hostnames, IsToken t ∧ t.head? ≠ some '#' := by
  induction fs generalizing i st with
  | nil => exact ⟨hip, hhs⟩
  | cons f fs ih =>
    have hf : IsToken f := hfs f (List.mem_cons_self _ _)
    have hfs2 : ∀ g ∈ fs, IsToken g := fun g hg => hfs g (List.mem_cons_of_mem _ hg)
    unfold scanFields
    rw [if_neg hf.1]
    by_cases hm : f.head? = some '#'
    · rw [if_pos hm]
      exact ⟨hip, hhs⟩
    · rw [if_neg hm]
      by_cases h0 : i = 0
      · rw [if_pos h0]
        exact ih _ _ hfs2 (Or.inr ⟨hf, hm⟩) hhs
      · rw [if_neg h0]
        refine ih _ _ hfs2 hip ?_
        intro t ht
        rcases List.mem_append.1 ht with h1 | h1
        · exact hhs t h1
        · simp only [List.mem_singleton] at h1
          subst h1
          exact ⟨hf, hm⟩

/-- Every entry of a successful parse is well formed. -/
theorem parseHostfileLine_wf (a : Nat) (i : Int) (line : Str) (es : List HostEntryPtr)
    (hes : parseHostfileLine a i line = .ok es) : ∀ p ∈ es, WfEntry p.obj := by
  by_cases h0 : line = []
  · simp [parseHostfileLine, h0] at hes
  · cases ht : TrimSpace line with
    | nil =>
      rw [(parseHostfileLine_panic_iff a i line).2 ⟨h0, ht⟩] at hes
      cases hes
    | cons c t =>
      by_cases hc : c = '#'
      · have hlen : ¬ line.length ≤ 0 := by
          cases line with
          | nil => exact absurd rfl h0
          | cons a l => simp
        unfold parseHostfileLine at hes
        simp only [hlen, if_false, ht, hc, if_true] at hes
        cases hes
      · rw [parseHostfileLine_data a i line c t h0 ht hc] at hes
        have hinv := scanFields_inv (Fields (c :: t)) 0
          { ip := [], hostnames := [], commentidx := 0 } (Fields_tokens _) (Or.inl rfl)
          (fun t ht => absurd ht (List.not_mem_nil t))
        generalize scanFields (Fields (c :: t)) 0 { ip := [], hostnames := [], commentidx := 0 }
          = st at hes hinv
        by_cases hbad : st.ip = [] ∨ st.hostnames.length = 0
        · rw [if_pos hbad] at hes
          cases hes
        · rw [if_neg hbad] at hes
          injection hes with hes
          subst hes
          intro p hp
          have hobj : p.obj ∈ (mkEntries a i st.ip
              (if st.commentidx > 0 then Join ((Fields (c :: t)).drop st.commentidx) [' '] else [])
              st.hostnames).map HostEntryPtr.obj := List.mem_map_of_mem _ hp
          rw [mkEntries_objs] at hobj
          obtain ⟨hn, hhn, hpo⟩ := List.mem_map.1 hobj
          rw [← hpo]
          have hipok : IsToken st.ip ∧ st.ip.head? ≠ some '#' := by
            rcases hinv.1 with h1 | h1
            · exact absurd (Or.inl h1) hbad
            · exact h1
          refine ⟨hipok, hinv.2 hn hhn, ?_⟩
          by_cases hpos : st.commentidx > 0
          · refine ⟨(Fields (c :: t)).drop st.commentidx, ?_, ?_⟩
            · intro w hw
              exact Fields_tokens _ w (List.mem_of_mem_drop hw)
            · simp only [hpos, if_true, Join]
          · exact ⟨[], fun w hw => absurd hw (List.not_mem_nil w), by simp only [hpos, if_false]; rfl⟩

theorem intercalate_cons_spaced (w : Str) (ws : List Str) :
    List.intercalate [' '] (w :: ws) = w ++ spaced (ws.map (fun v => ([' '], v))) := by
  induction ws generalizing w with
  | nil => simp [List.intercalate, spaced]
  | cons v vs ih =>
    have h := ih v
    simp only [List.intercalate, List.intersperse_cons₂, List.flatten_cons, List.map_cons,
      spaced] at h ⊢
    rw [h]
    simp

/-- `Write` ends every entry line with CR LF. -/
theorem formatEntry_eq (e : HostEntry) : formatEntry e = entryLine e ++ ['\r', '\n'] := by
  simp [formatEntry, entryLine]

/-- Parsing the line `Write` emits for a well-formed entry gives back exactly
that entry, at the index of the line. -/
theorem parseHostfileLine_entryLine (a : Nat) (i : Int) (e : HostEntry) (hw : WfEntry e) :
    parseHostfileLine a i (entryLine e) =
      .ok [{ addr := a,
             obj := { idx := i, IP := e.IP, Hostname := e.Hostname, Comment := e.Comment } }] := by
  obtain ⟨⟨hip, hip2⟩, ⟨hh, hh2⟩, ws, hws, hc⟩ := hw
  have hsp : IsSep [' '] := by decide
  have hhs : ∀ p ∈ [(([' '] : Str), e.Hostname)], IsSep p.1 ∧ IsToken p.2 ∧ p.2.head? ≠ some '#' := by
    intro p hp
    simp only [List.mem_singleton] at hp
    subst hp
    exact ⟨hsp, hh, hh2⟩
  cases ws with
  | nil =>
    have hc0 : e.Comment = [] := by simpa [List.intercalate] using hc
    have hline : entryLine e = e.IP ++ spaced [([' '], e.Hostname)] := by
      simp [entryLine, spaced, hc0]
    rw [hline, parseHostfileLine_plain a i e.IP _ hip hip2 (by simp) hhs, hc0]
    rfl
  | cons w ws1 =>
    have hw0 : w ≠ [] := (hws w (List.mem_cons_self _ _)).1
    have hc1 : e.Comment = w ++ spaced (ws1.map (fun v => ([' '], v))) := by
      rw [hc, intercalate_cons_spaced]
    have hne : e.Comment ≠ [] := by
      rw [hc1]
      cases w with
      | nil => exact absurd rfl hw0
      | cons c t => simp
    have hline : entryLine e = e.IP ++ spaced [([' '], e.Hostname)] ++ "    ".toList ++ ['#'] ++
        spaced ((w :: ws1).map (fun v => ([' '], v))) := by
      simp only [entryLine, hne, ne_eq, not_false_eq_true, if_true, spaced, List.map_cons]
      rw [hc1]
      simp
    have hcs : ∀ p ∈ (w :: ws1).map (fun v => (([' '] : Str), v)), IsSep p.1 ∧ IsToken p.2 := by
      intro p hp
      obtain ⟨v, hv, rfl⟩ := List.mem_map.1 hp
      exact ⟨hsp, hws v hv⟩
    rw [hline, parseHostfileLine_layout a i e.IP _ "    ".toList ['#'] _ hip hip2 (by simp) hhs
      (by decide) (by decide) rfl hcs]
    have hm : ((w :: ws1).map (fun v => (([' '] : Str), v))).map Prod.snd = w :: ws1 := by
      rw [List.map_map]
      exact List.map_id _
    rw [hm, ← hc]
    rfl

/-! ## Reading back what `Write` emits -/

theorem dropCR_concat_cr (s : Str) : dropCR (s ++ ['\r']) = s := by
  simp [dropCR]

/-- Reading a run of code points other than line feed extends the current
line. -/
theorem scanLinesFrom_text (l rest cur : Str) (hl : ∀ c ∈ l, c ≠ '\n') :
    scanLinesFrom (l ++ rest) cur = scanLinesFrom rest (cur ++ l) := by
  induction l generalizing cur with
  | nil => simp
  | cons c l ih =>
    have hc : c ≠ '\n' := hl c (List.mem_cons_self _ _)
    have hl2 : ∀ d ∈ l, d ≠ '\n' := fun d hd => hl d (List.mem_cons_of_mem _ hd)
    show scanLinesFrom (c :: (l ++ rest)) cur = _
    simp only [scanLinesFrom, hc, if_false]
    rw [ih _ hl2]
    simp

/-- A line that fits the scanner's buffer is yielded, and the scan goes on
behind its line feed. -/
theorem scanLinesFrom_line (l rest : Str) (hl : ∀ c ∈ l, c ≠ '\n')
    (hfit : (Bytes l).length < MaxScanTokenSize) :
    scanLinesFrom (l ++ '\n' :: rest) [] = dropCR l :: scanLinesFrom rest [] := by
  rw [scanLinesFrom_text l _ [] hl, List.nil_append]
  simp only [scanLinesFrom, if_true]
  rw [if_neg (by omega)]

/-- A line that does not fit the scanner's buffer ends the scan: neither it
nor any line behind it is yielded. -/
theorem scanLinesFrom_too_long (l rest : Str) (hl : ∀ c ∈ l, c ≠ '\n')
    (hlong : MaxScanTokenSize ≤ (Bytes l).length) :
    scanLinesFrom (l ++ '\n' :: rest) [] = [] := by
  rw [scanLinesFrom_text l _ [] hl, List.nil_append]
  simp only [scanLinesFrom, if_true]
  rw [if_pos hlong]

theorem Bytes_append (s t : Str) : Bytes (s ++ t) = Bytes s ++ Bytes t := by
  simp [Bytes]

/-- Scanning lines written with CR LF after each gives the lines back, when
each line with its CR fits the scanner's buffer. -/
theorem scanLines_crlf (ls : List Str) (hls : ∀ l ∈ ls, ∀ c ∈ l, c ≠ '\n')
    (hfit : ∀ l ∈ ls, (Bytes l).length + 1 < MaxScanTokenSize) :
    scanLines ((ls.map (fun l => l ++ ['\r', '\n'])).flatten) = ls := by
  unfold scanLines
  induction ls with
  | nil => rfl
  | cons l ls ih =>
    have hl : ∀ c ∈ l, c ≠ '\n' := hls l (List.mem_cons_self _ _)
    have hls2 : ∀ m ∈ ls, ∀ c ∈ m, c ≠ '\n' := fun m hm => hls m (List.mem_cons_of_mem _ hm)
    have hfit2 : ∀ m ∈ ls, (Bytes m).length + 1 < MaxScanTokenSize :=
      fun m hm => hfit m (List.mem_cons_of_mem _ hm)
    have hl1 : ∀ c ∈ l ++ ['\r'], c ≠ '\n' := by
      intro c hc
      rcases List.mem_append.1 hc with h1 | h1
      · exact hl c h1
      · simp only [List.mem_singleton] at h1
        subst h1
        decide
    have hb : (Bytes (l ++ ['\r'])).length < MaxScanTokenSize := by
      have h1 := hfit l (List.mem_cons_self _ _)
      have h2 : (Bytes ['\r']).length = 1 := by decide
      rw [Bytes_append, List.length_append, h2]
      exact h1
    have hstep := scanLinesFrom_line (l ++ ['\r'])
      ((ls.map (fun l => l ++ ['\r', '\n'])).flatten) hl1 hb
    rw [dropCR_concat_cr] at hstep
    simp only [List.map_cons, List.flatten_cons]
    have e : l ++ ['\r', '\n'] ++ (ls.map (fun l => l ++ ['\r', '\n'])).flatten =
        (l ++ ['\r']) ++ '\n' :: (ls.map (fun l => l ++ ['\r', '\n'])).flatten := by simp
    rw [e, hstep]
    exact congrArg (fun t => l :: t) (ih hls2 hfit2)

/-- Scanning one line written with CR LF gives the line back when it fits the
scanner, and nothing when it does not. -/
theorem scanLines_crlf_line (l : Str) (hl : ∀ c ∈ l, c ≠ '\n') :
    scanLines (l ++ ['\r', '\n']) = if FitsScanner l then [l] else [] := by
  have hl1 : ∀ c ∈ l ++ ['\r'], c ≠ '\n' := by
    intro c hc
    rcases List.mem_append.1 hc with h1 | h1
    · exact hl c h1
    · simp only [List.mem_singleton] at h1
      subst h1
      decide
  have hb : (Bytes (l ++ ['\r'])).length = (Bytes l).length + 1 := by
    have h2 : (Bytes ['\r']).length = 1 := by decide
    rw [Bytes_append, List.length_append, h2]
  have e : l ++ ['\r', '\n'] = (l ++ ['\r']) ++ '\n' :: [] := by simp
  unfold scanLines
  rw [e]
  by_cases hf : FitsScanner l
  · rw [if_pos hf, scanLinesFrom_line _ _ hl1 (by rw [hb]; exact hf), dropCR_concat_cr]
    rfl
  · rw [if_neg hf, scanLinesFrom_too_long _ _ hl1 (by
      rw [hb]
      unfold FitsScanner at hf
      omega)]

/-- No line a scanner yields contains a line feed. -/
theorem scanLinesFrom_no_lf (data cur : Str) (hcur : ∀ c ∈ cur, c ≠ '\n') :
    ∀ l ∈ scanLinesFrom data cur, ∀ c ∈ l, c ≠ '\n' := by
  have hdrop : ∀ s : Str, (∀ c ∈ s, c ≠ '\n') → ∀ c ∈ dropCR s, c ≠ '\n' := by
    intro s hs c hc
    unfold dropCR at hc
    split at hc
    · exact hs c (List.mem_of_mem_dropLast hc)
    · exact hs c hc
  induction data generalizing cur with
  | nil =>
    intro l hl
    unfold scanLinesFrom at hl
    by_cases h0 : cur = []
    · simp [h0] at hl
    · rw [if_neg h0] at hl
      by_cases h1 : MaxScanTokenSize ≤ (Bytes cur).length
      · rw [if_pos h1] at hl
        exact absurd hl (List.not_mem_nil l)
      · rw [if_neg h1] at hl
        rw [List.mem_singleton.1 hl]
        exact hdrop cur hcur
  | cons d data ih =>
    intro l hl
    unfold scanLinesFrom at hl
    by_cases hd : d = '\n'
    · rw [if_pos hd] at hl
      by_cases h1 : MaxScanTokenSize ≤ (Bytes cur).length
      · rw [if_pos h1] at hl
        exact absurd hl (List.not_mem_nil l)
      · rw [if_neg h1] at hl
        rcases List.mem_cons.1 hl with hl | hl
        · rw [hl]
          exact hdrop cur hcur
        · exact ih [] (fun c hc => absurd hc (List.not_mem_nil c)) l hl
    · rw [if_neg hd] at hl
      refine ih (cur ++ [d]) ?_ l hl
      intro c hc
      rcases List.mem_append.1 hc with h1 | h1
      · exact hcur c h1
      · simp only [List.mem_singleton] at h1
        subst h1
        exact hd

/-- No line of a file, as the scanner yields them, contains a line feed. -/
theorem scanLines_no_lf (data : Str) : ∀ l ∈ scanLines data, ∀ c ∈ l, c ≠ '\n' :=
  scanLinesFrom_no_lf data [] (fun c hc => absurd hc (List.not_mem_nil c))

/-- Every line the scanner yields is shorter than the buffer limit. -/
theorem scanLinesFrom_fits (data cur : Str) :
    ∀ l ∈ scanLinesFrom data cur, (Bytes l).length < MaxScanTokenSize := by
  have hdrop : ∀ s : Str, (Bytes (dropCR s)).length ≤ (Bytes s).length := by
    intro s
    unfold dropCR
    split
    · rcases List.eq_nil_or_concat s with h | ⟨u, b, h⟩
      · subst h
        simp
      · have h2 : s = u ++ [b] := by simpa using h
        subst h2
        rw [List.dropLast_concat, Bytes_append, List.length_append]
        omega
    · exact Nat.le_refl _
  induction data generalizing cur with
  | nil =>
    intro l hl
    unfold scanLinesFrom at hl
    by_cases h0 : cur = []
    · simp [h0] at hl
    · rw [if_neg h0] at hl
      by_cases h1 : MaxScanTokenSize ≤ (Bytes cur).length
      · rw [if_pos h1] at hl
        exact absurd hl (List.not_mem_nil l)
      · rw [if_neg h1] at hl
        rw [List.mem_singleton.1 hl]
        have := hdrop cur
        omega
  | cons d data ih =>
    intro l hl
    unfold scanLinesFrom at hl
    by_cases hd : d = '\n'
    · rw [if_pos hd] at hl
      by_cases h1 : MaxScanTokenSize ≤ (Bytes cur).length
      · rw [if_pos h1] at hl
        exact absurd hl (List.not_mem_nil l)
      · rw [if_neg h1] at hl
        rcases List.mem_cons.1 hl with hl | hl
        · rw [hl]
          have := hdrop cur
          omega
        · exact ih [] l hl
    · rw [if_neg hd] at hl
      exact ih (cur ++ [d]) l hl

/-- What a line yields does not depend on its index, the `idx` field of the
entries apart. -/
theorem Yields_reindex (filter : Str) (i j : Int) (line : Str) (e : HostEntry)
    (hy : Yields filter i line e) :
    Yields filter j line { idx := j, IP := e.IP, Hostname := e.Hostname, Comment := e.Comment } := by
  obtain ⟨a, es, p, hp, hpm, hpe, hadm⟩ := hy
  rcases parseHostfileLine_shape line with ⟨err, h⟩ | ⟨_, h⟩ | ⟨ip, c, hns, _, _, _, h⟩
  · rw [h a i] at hp; cases hp
  · rw [h a i] at hp; cases hp
  · rw [h a i] at hp
    injection hp with hp
    subst hp
    have hobj : p.obj ∈ (mkEntries a i ip c hns).map HostEntryPtr.obj :=
      List.mem_map_of_mem _ hpm
    rw [mkEntries_objs] at hobj
    obtain ⟨hn, hhn, hpo⟩ := List.mem_map.1 hobj
    rw [hpe] at hpo
    subst hpo
    have hmem : ({ idx := j, IP := ip, Hostname := hn, Comment := c } : HostEntry) ∈
        (mkEntries a j ip c hns).map HostEntryPtr.obj := by
      rw [mkEntries_objs]
      exact List.mem_map_of_mem _ hhn
    obtain ⟨q, hq, hqo⟩ := List.mem_map.1 hmem
    exact ⟨a, _, q, h a j, hq, hqo, hadm⟩

/-- Whether a line is owned does not depend on its index. -/
theorem ownedLine_index (filter : Str) (i j : Int) (line : Str) :
    ownedLine filter i line = ownedLine filter j line := by
  rw [Bool.eq_iff_iff, ownedLine_iff, ownedLine_iff]
  constructor
  · rintro ⟨e, hy⟩
    exact ⟨_, Yields_reindex filter i j line e hy⟩
  · rintro ⟨e, hy⟩
    exact ⟨_, Yields_reindex filter j i line e hy⟩

theorem keptLines_enumFrom (filter : Str) (ls : List Str) (n : Nat) :
    ((ls.enumFrom n).filter (fun p => !ownedLine filter (p.1 : Int) p.2)).map Prod.snd =
      ls.filter (fun l => !ownedLine filter 0 l) := by
  induction ls generalizing n with
  | nil => rfl
  | cons l ls ih =>
    rw [List.enumFrom_cons, List.filter_cons, List.filter_cons, ownedLine_index filter (n : Int) 0]
    by_cases ho : ownedLine filter 0 l = true
    · simp only [ho, Bool.not_true, Bool.false_eq_true, if_false]
      exact ih (n + 1)
    · have ho2 : ownedLine filter 0 l = false := by simpa using ho
      simp only [ho2, Bool.not_false, if_true, List.map_cons]
      rw [ih (n + 1)]

/-- The lines kept are the lines that are not owned. -/
theorem keptLines_eq_filter (filter : Str) (ls : List Str) :
    keptLines filter ls = ls.filter (fun l => !ownedLine filter 0 l) :=
  keptLines_enumFrom filter ls 0

theorem mem_spaced (ps : List (Str × Str)) (c : Char) (hc : c ∈ spaced ps) :
    ∃ p ∈ ps, c ∈ p.1 ∨ c ∈ p.2 := by
  induction ps with
  | nil => simp [spaced] at hc
  | cons p ps ih =>
    simp only [spaced, List.mem_append] at hc
    rcases hc with (h1 | h1) | h1
    · exact ⟨p, List.mem_cons_self _ _, Or.inl h1⟩
    · exact ⟨p, List.mem_cons_self _ _, Or.inr h1⟩
    · obtain ⟨q, hq, hcq⟩ := ih h1
      exact ⟨q, List.mem_cons_of_mem _ hq, hcq⟩

/-- The line `Write` emits for a well-formed entry contains no line feed. -/
theorem entryLine_no_lf (e : HostEntry) (hw : WfEntry e) : ∀ c ∈ entryLine e, c ≠ '\n' := by
  obtain ⟨⟨hip, _⟩, ⟨hh, _⟩, ws, hws, hc⟩ := hw
  have htok : ∀ t : Str, IsToken t → ∀ c ∈ t, c ≠ '\n' := by
    intro t ht c hct hcn
    have := ht.2 c hct
    rw [hcn] at this
    exact absurd this (by decide)
  have hcom : ∀ c ∈ e.Comment, c ≠ '\n' := by
    intro c hcc
    rw [hc] at hcc
    cases ws with
    | nil => simp [List.intercalate] at hcc
    | cons w ws1 =>
      rw [intercalate_cons_spaced, List.mem_append] at hcc
      rcases hcc with h1 | h1
      · exact htok w (hws w (List.mem_cons_self _ _)) c h1
      · obtain ⟨p, hp, hcp⟩ := mem_spaced _ c h1
        obtain ⟨v, hv, rfl⟩ := List.mem_map.1 hp
        rcases hcp with h2 | h2
        · simp only [List.mem_singleton] at h2
          rw [h2]; decide
        · exact htok v (hws v (List.mem_cons_of_mem _ hv)) c h2
  intro c hce
  unfold entryLine at hce
  simp only [List.mem_append, List.mem_singleton] at hce
  rcases hce with ((h1 | h1) | h1) | h1
  · exact htok _ hip c h1
  · rw [h1]; decide
  · exact htok _ hh c h1
  · split at h1
    · rcases List.mem_append.1 h1 with h2 | h2
      · have : ∀ d ∈ "    # ".toList, d ≠ '\n' := by decide
        exact this c h2
      · exact hcom c h2
    · exact absurd h1 (List.not_mem_nil c)

/-- Every entry of the store a load returns is well formed, passes the
filter and is stored under its own Hostname. -/
theorem loadAndParse_store_wf (filter : Str) (data : Str) (alloc : Nat) (h : HostsAPI)
    (alloc2 : Nat) (hload : loadAndParse (newAPI filter data) alloc = .ok (h, alloc2))
    (name : Str) (p : HostEntryPtr) (hp : h.entries name = some p) :
    WfEntry p.obj ∧ Admits filter p.obj ∧ p.obj.Hostname = name := by
  rcases loadAndParse_entries filter data alloc h alloc2 hload name with
    ⟨k, line, q, _, hy, hn, hs, _⟩ | ⟨_, hs⟩
  · rw [hs] at hp
    injection hp with hp
    subst hp
    obtain ⟨a, es, r, hr, hrm, hre, hadm⟩ := hy
    refine ⟨?_, hadm, hn⟩
    rw [← hre]
    exact parseHostfileLine_wf a _ line es hr r hrm
  · rw [hs] at hp
    cases hp

/-- The load of a file runs the loop over the lines its scanner yields. -/
theorem loadAndParse_newAPI (filter data : Str) (alloc : Nat) :
    loadAndParse (newAPI filter data) alloc =
      loadLoop (scanLines data) 0 alloc (newAPI filter data) := rfl

/-- The lines a scanner reads back from the buffer `Write` builds for a store
`s` that has the owned lines and the file of a loaded store and whose entries
are well formed, when every line written fits the scanner: the lines that
were not owned, then one line per entry visited. -/
theorem scanLines_Write_outbuf_of (filter : Str) (data : Str) (alloc : Nat)
    (h : HostsAPI) (alloc2 : Nat) (s : HostsAPI) (order : List Str)
    (hload : loadAndParse (newAPI filter data) alloc = .ok (h, alloc2))
    (hrem : s.remidxs = h.remidxs) (hsfile : s.hostsfile = h.hostsfile)
    (hwf : ∀ name p, s.entries name = some p →
      WfEntry p.obj ∧ Admits filter p.obj ∧ p.obj.Hostname = name)
    (hfitk : ∀ l ∈ keptLines filter (scanLines data), FitsScanner l)
    (hfite : ∀ name p, s.entries name = some p → FitsScanner (entryLine p.obj)) :
    scanLines (Write_outbuf s order) =
      keptLines filter (scanLines data) ++
        (order.filterMap s.entries).map (fun p => entryLine p.obj) := by
  have hfile : h.hostsfile = data :=
    (loadAndParse_hostsfile filter data alloc h alloc2 hload).1
  have hbuf : Write_outbuf s order =
      ((keptLines filter (scanLines data) ++ (order.filterMap s.entries).map
        (fun p => entryLine p.obj)).map (fun l => l ++ ['\r', '\n'])).flatten := by
    unfold Write_outbuf
    rw [appendEntries_eq, hrem, hsfile, hfile,
      replayLines_loaded filter data alloc h alloc2 hload,
      List.map_append, List.flatten_append, List.map_map]
    congr 2
  rw [hbuf]
  apply scanLines_crlf
  · intro l hl
    rcases List.mem_append.1 hl with h1 | h1
    · rw [keptLines_eq_filter] at h1
      exact scanLines_no_lf data l (List.mem_of_mem_filter h1)
    · obtain ⟨p, hp, rfl⟩ := List.mem_map.1 h1
      obtain ⟨k, _, hk⟩ := List.mem_filterMap.1 hp
      exact entryLine_no_lf p.obj (hwf k p hk).1
  · intro l hl
    rcases List.mem_append.1 hl with h1 | h1
    · exact hfitk l h1
    · obtain ⟨p, hp, rfl⟩ := List.mem_map.1 h1
      obtain ⟨k, _, hk⟩ := List.mem_filterMap.1 hp
      exact hfite k p hk

/-- The lines a scanner reads back from the buffer `Write` builds for the
store as loaded, when every line written fits the scanner: the lines that
were not owned, then one line per entry visited. -/
theorem scanLines_Write_outbuf (filter : Str) (data : Str) (alloc : Nat) (h : HostsAPI)
    (alloc2 : Nat) (order : List Str)
    (hload : loadAndParse (newAPI filter data) alloc = .ok (h, alloc2))
    (hfitk : ∀ l ∈ keptLines filter (scanLines data), FitsScanner l)
    (hfite : ∀ name p, h.entries name = some p → FitsScanner (entryLine p.obj)) :
    scanLines (Write_outbuf h order) =
      keptLines filter (scanLines data) ++
        (order.filterMap h.entries).map (fun p => entryLine p.obj) :=
  scanLines_Write_outbuf_of filter data alloc h alloc2 h order hload rfl rfl
    (loadAndParse_store_wf filter data alloc h alloc2 hload) hfitk hfite

/-- Reading back what `Write` emits for a store `s` that has the owned lines
and the file of a loaded store and whose entries are well formed, pass the
filter and are stored under their own Hostname, when every line written fits
the scanner: the load of the output returns, every hostname has the IP and
Comment it has in `s` (and is absent if it is absent from `s`), and the lines
that are not owned are those of the original file, in the same order. -/
theorem Write_reload (filter : Str) (data : Str) (alloc : Nat) (h : HostsAPI)
    (alloc2 : Nat) (s : HostsAPI) (order : List Str) (alloc3 : Nat)
    (hload : loadAndParse (newAPI filter data) alloc = .ok (h, alloc2))
    (hrem : s.remidxs = h.remidxs) (hsfile : s.hostsfile = h.hostsfile)
    (hwf : ∀ name p, s.entries name = some p →
      WfEntry p.obj ∧ Admits filter p.obj ∧ p.obj.Hostname = name)
    (hfitk : ∀ l ∈ keptLines filter (scanLines data), FitsScanner l)
    (hfite : ∀ name p, s.entries name = some p → FitsScanner (entryLine p.obj))
    (horder : RangeOrder s.entries order) :
    ∃ h2 alloc4,
      loadAndParse (newAPI filter (Write_outbuf s order)) alloc3 = .ok (h2, alloc4) ∧
      (∀ name, (h2.entries name).map (fun p => (p.obj.IP, p.obj.Comment)) =
        (s.entries name).map (fun p => (p.obj.IP, p.obj.Comment))) ∧
      keptLines filter (scanLines (Write_outbuf s order)) =
        keptLines filter (scanLines data) := by
  have hscan := scanLines_Write_outbuf_of filter data alloc h alloc2 s order hload hrem hsfile
    hwf hfitk hfite
  -- the lines written for the entries parse back to the entries
  have hmanaged : ∀ line ∈ (order.filterMap s.entries).map (fun p => entryLine p.obj),
      ∃ key p, s.entries key = some p ∧ line = entryLine p.obj := by
    intro line hl
    obtain ⟨p, hp, rfl⟩ := List.mem_map.1 hl
    obtain ⟨k, _, hk⟩ := List.mem_filterMap.1 hp
    exact ⟨k, p, hk, rfl⟩
  have hyield : ∀ (key : Str) (p : HostEntryPtr) (k : Int), s.entries key = some p →
      Yields filter k (entryLine p.obj)
        { idx := k, IP := p.obj.IP, Hostname := p.obj.Hostname, Comment := p.obj.Comment } := by
    intro key p k hk
    exact ⟨0, _, _, parseHostfileLine_entryLine 0 k p.obj (hwf key p hk).1,
      List.mem_singleton.2 rfl, rfl, (hwf key p hk).2.1⟩
  have hkeptmem : ∀ line ∈ keptLines filter (scanLines data),
      line ∈ (scanLines data) ∧ ownedLine filter 0 line = false := by
    intro line hl
    rw [keptLines_eq_filter] at hl
    have := List.mem_filter.1 hl
    exact ⟨this.1, by simpa using this.2⟩
  -- the second load returns
  have hret : ∀ l ∈ scanLines (Write_outbuf s order), l = [] ∨ TrimSpace l ≠ [] := by
    rw [hscan]
    intro l hl
    rcases List.mem_append.1 hl with h1 | h1
    · exact (loadAndParse_returns_iff (newAPI filter data) alloc).1 ⟨h, alloc2, hload⟩ l
        (hkeptmem l h1).1
    · obtain ⟨key, p, hk, rfl⟩ := hmanaged l h1
      by_cases h0 : entryLine p.obj = []
      · exact Or.inl h0
      · right
        intro ht
        have hp := (parseHostfileLine_panic_iff 0 0 (entryLine p.obj)).2 ⟨h0, ht⟩
        rw [parseHostfileLine_entryLine 0 0 p.obj (hwf key p hk).1] at hp
        cases hp
  obtain ⟨h2, alloc4, hload2⟩ :=
    (loadAndParse_returns_iff (newAPI filter (Write_outbuf s order)) alloc3).2 hret
  refine ⟨h2, alloc4, hload2, ?_, ?_⟩
  · -- what the lines of the output yield
    have hA : ∀ (k : Nat) (line : Str) (e : HostEntry),
        (keptLines filter (scanLines data) ++
          (order.filterMap s.entries).map (fun p => entryLine p.obj))[k]? = some line →
        Yields filter (k : Int) line e →
        ∃ q, s.entries e.Hostname = some q ∧ e.IP = q.obj.IP ∧ e.Comment = q.obj.Comment := by
      intro k line e hk hy
      have hmem : line ∈ keptLines filter (scanLines data) ++
          (order.filterMap s.entries).map (fun p => entryLine p.obj) :=
        List.mem_iff_getElem?.2 ⟨k, hk⟩
      rcases List.mem_append.1 hmem with h1 | h1
      · have hown : ownedLine filter 0 line = true :=
          (ownedLine_iff filter 0 line).2 ⟨_, Yields_reindex filter k 0 line e hy⟩
        rw [(hkeptmem line h1).2] at hown
        cases hown
      · obtain ⟨key, p, hkey, rfl⟩ := hmanaged line h1
        obtain ⟨⟨r, hr, hre⟩, _⟩ := (Yields_iff_of_ok filter 0 k (entryLine p.obj) _
          (parseHostfileLine_entryLine 0 k p.obj (hwf key p hkey).1) e).1 hy
        simp only [List.mem_singleton] at hr
        subst hr
        subst hre
        refine ⟨p, ?_, rfl, rfl⟩
        show s.entries p.obj.Hostname = some p
        rw [(hwf key p hkey).2.2]
        exact hkey
    intro name
    have hent := loadAndParse_entries filter (Write_outbuf s order) alloc3 h2 alloc4 hload2 name
    rw [hscan] at hent
    rcases hent with ⟨k, line, p, hk, hy, hn, hs, _⟩ | ⟨hno, hs⟩
    · obtain ⟨q, hq, hip, hcm⟩ := hA k line p.obj hk hy
      rw [hn] at hq
      rw [hs, hq]
      simp only [Option.map_some', hip, hcm]
    · rw [hs]
      cases hq : s.entries name with
      | none => rfl
      | some q =>
        exfalso
        have hin : name ∈ order := (horder.2 name).2 (by rw [hq]; rfl)
        have hmem : entryLine q.obj ∈ keptLines filter (scanLines data) ++
            (order.filterMap s.entries).map (fun p => entryLine p.obj) := by
          apply List.mem_append_right
          apply List.mem_map_of_mem
          exact List.mem_filterMap.2 ⟨name, hin, hq⟩
        obtain ⟨k, hk⟩ := List.mem_iff_getElem?.1 hmem
        exact hno k _ _ hk (hyield name q k hq) (hwf name q hq).2.2
  · rw [hscan, keptLines_eq_filter, List.filter_append]
    have h1 : (keptLines filter (scanLines data)).filter (fun l => !ownedLine filter 0 l) =
        keptLines filter (scanLines data) := by
      rw [List.filter_eq_self]
      intro l hl
      simp [(hkeptmem l hl).2]
    have h2 : ((order.filterMap s.entries).map (fun p => entryLine p.obj)).filter
        (fun l => !ownedLine filter 0 l) = [] := by
      rw [List.filter_eq_nil_iff]
      intro l hl
      obtain ⟨key, p, hkey, rfl⟩ := hmanaged l hl
      have : ownedLine filter 0 (entryLine p.obj) = true :=
        (ownedLine_iff filter 0 _).2 ⟨_, hyield key p 0 hkey⟩
      simp [this]
    rw [h1, h2, List.append_nil]

/-- Round trip on the files the scanner reads to the end and the load
accepts: when the load of a file returns, every line that is not owned and
every line written for an entry fits the scanner, no mutation is made and the
buffer of `Write` is read back with the same filter, the second load returns
as well, every hostname has the same IP and Comment as before (and is absent
if it was absent), and the lines that are not owned are the same, in the same
order. -/
theorem load_Write_load (filter : Str) (data : Str) (alloc : Nat) (h : HostsAPI)
    (alloc2 : Nat) (order : List Str) (alloc3 : Nat)
    (hload : loadAndParse (newAPI filter data) alloc = .ok (h, alloc2))
    (hfitk : ∀ l ∈ keptLines filter (scanLines data), FitsScanner l)
    (hfite : ∀ name p, h.entries name = some p → FitsScanner (entryLine p.obj))
    (horder : RangeOrder h.entries order) :
    ∃ h2 alloc4,
      loadAndParse (newAPI filter (Write_outbuf h order)) alloc3 = .ok (h2, alloc4) ∧
      (∀ name, (h2.entries name).map (fun p => (p.obj.IP, p.obj.Comment)) =
        (h.entries name).map (fun p => (p.obj.IP, p.obj.Comment))) ∧
      keptLines filter (scanLines (Write_outbuf h order)) =
        keptLines filter (scanLines data) :=
  Write_reload filter data alloc h alloc2 h order alloc3 hload rfl rfl
    (loadAndParse_store_wf filter data alloc h alloc2 hload) hfitk hfite horder

/-- The round trip on a file with an unmanaged line and a managed line,
loaded under the filter `managed by api`. -/
theorem load_Write_load_example :
    ∃ h2 alloc4,
      loadAndParse (newAPI "managed by api".toList (Write_outbuf
        (loaded "managed by api".toList
          "127.0.0.1 localhost\n10.0.0.5 vm1 #  managed by api\r\n".toList)
        ["vm1".toList])) 2 = .ok (h2, alloc4) ∧
      (∀ name, (h2.entries name).map (fun p => (p.obj.IP, p.obj.Comment)) =
        ((loaded "managed by api".toList
          "127.0.0.1 localhost\n10.0.0.5 vm1 #  managed by api\r\n".toList).entries
            name).map (fun p => (p.obj.IP, p.obj.Comment))) ∧
      keptLines "managed by api".toList (scanLines (Write_outbuf
        (loaded "managed by api".toList
          "127.0.0.1 localhost\n10.0.0.5 vm1 #  managed by api\r\n".toList)
        ["vm1".toList])) =
        keptLines "managed by api".toList
          (scanLines "127.0.0.1 localhost\n10.0.0.5 vm1 #  managed by api\r\n".toList) := by
  have hent : (loaded "managed by api".toList
      "127.0.0.1 localhost\n10.0.0.5 vm1 #  managed by api\r\n".toList).entries =
      mapSet (fun _ => none) "vm1".toList
        ⟨1, ⟨1, "10.0.0.5".toList, "vm1".toList, "managed by api".toList⟩⟩ := rfl
  refine load_Write_load "managed by api".toList
    "127.0.0.1 localhost\n10.0.0.5 vm1 #  managed by api\r\n".toList 0 _ 2 ["vm1".toList] 2 rfl
    (by decide) ?_ ⟨by decide, ?_⟩
  · intro name p hp
    rw [hent] at hp
    by_cases hk : name = "vm1".toList
    · rw [hk, mapSet_same] at hp
      injection hp with hp
      rw [← hp]
      decide
    · rw [mapSet_other _ _ _ _ hk] at hp
      cases hp
  · intro k
    rw [hent]
    by_cases hk : k = "vm1".toList
    · simp [mapSet, hk]
    · simp [mapSet, hk]

/-- C4 (the code at the failing input): the file whose lines are
`127.0.0.1 localhost`, a single tab, and `10.0.0.5 vm1` cannot be loaded with
the empty filter, because the load panics on the second line; no output is
built at all. -/
theorem CreateAPI_panics_on_tab_line :
    CreateAPI [] "127.0.0.1 localhost\n\t\n10.0.0.5 vm1\n".toList 0 = .panic := by
  rfl

/-! ## Format and parse, upsert, and the managed lines -/

/-- C17: for a well-formed entry (IP and Hostname tokens that do not begin
with `#`, Comment empty or words joined by single spaces) the text `Write`
emits is one line followed by CR LF, that line parses at any index to exactly
one entry with the same IP, Hostname and Comment, and every entry the parser
ever returns is well formed in this sense.  A scanner reads the text back as
that one line when the line fits its buffer, and as nothing when it does
not. -/
theorem formatEntry_parse_inverse (a : Nat) (i : Int) (e : HostEntry) (hw : WfEntry e) :
    (∃ line, formatEntry e = line ++ ['\r', '\n'] ∧
      scanLines (formatEntry e) = (if FitsScanner line then [line] else []) ∧
      parseHostfileLine a i line =
        .ok [{ addr := a,
               obj := { idx := i, IP := e.IP, Hostname := e.Hostname, Comment := e.Comment } }]) ∧
    (∀ (a2 : Nat) (i2 : Int) (line2 : Str) (es : List HostEntryPtr),
      parseHostfileLine a2 i2 line2 = .ok es → ∀ p ∈ es, WfEntry p.obj) := by
  refine ⟨⟨entryLine e, formatEntry_eq e, ?_, parseHostfileLine_entryLine a i e hw⟩, ?_⟩
  · rw [formatEntry_eq]
    exact scanLines_crlf_line (entryLine e) (entryLine_no_lf e hw)
  · intro a2 i2 line2 es hes
    exact parseHostfileLine_wf a2 i2 line2 es hes

/-- The entry `{10.0.0.5, vm1, "managed by api"}` is well formed, and
`formatEntry_parse_inverse` applies to it at index 3. -/
theorem formatEntry_parse_inverse_witness :
    WfEntry (vm1Entry 0).obj ∧
    (∃ line, formatEntry (vm1Entry 0).obj = line ++ ['\r', '\n'] ∧
      scanLines (formatEntry (vm1Entry 0).obj) = (if FitsScanner line then [line] else []) ∧
      parseHostfileLine 7 3 line =
        .ok [{ addr := 7,
               obj := { idx := 3, IP := (vm1Entry 0).obj.IP, Hostname := (vm1Entry 0).obj.Hostname,
                        Comment := (vm1Entry 0).obj.Comment } }]) ∧
    (∀ (a2 : Nat) (i2 : Int) (line2 : Str) (es : List HostEntryPtr),
      parseHostfileLine a2 i2 line2 = .ok es → ∀ p ∈ es, WfEntry p.obj) :=
  have hw : WfEntry (vm1Entry 0).obj :=
    ⟨by decide, by decide, ["managed".toList, "by".toList, "api".toList], by decide, by decide⟩
  ⟨hw, formatEntry_parse_inverse 7 3 (vm1Entry 0).obj hw⟩

/-- C13: when the entry's Hostname is absent from the store, or present with
an entry that differs in IP or Comment, `IsUpsertEntry` returns true, the
store then maps the Hostname to the given entry, every other key keeps its
entry and the owned-line set, the filter and the file are untouched.  The
hypothesis `halias` says what a pointer is: the stored pointer and the given
one, if they are the same address, point to the same object. -/
theorem IsUpsertEntry_inserts_or_replaces (h : HostsAPI) (entry : HostEntryPtr)
    (halias : ∀ old, h.entries entry.obj.Hostname = some old → old.addr = entry.addr →
      old.obj = entry.obj)
    (hdiff : h.entries entry.obj.Hostname = none ∨
      ∃ old, h.entries entry.obj.Hostname = some old ∧
        (old.obj.IP ≠ entry.obj.IP ∨ old.obj.Comment ≠ entry.obj.Comment)) :
    (IsUpsertEntry h entry).2 = true ∧
    (IsUpsertEntry h entry).1.entries entry.obj.Hostname = some entry ∧
    (∀ k, k ≠ entry.obj.Hostname → (IsUpsertEntry h entry).1.entries k = h.entries k) ∧
    (IsUpsertEntry h entry).1.remidxs = h.remidxs ∧
    (IsUpsertEntry h entry).1.filter = h.filter ∧
    (IsUpsertEntry h entry).1.hostsfile = h.hostsfile := by
  have hres : IsUpsertEntry h entry =
      ({ h with entries := mapSet h.entries entry.obj.Hostname entry }, true) := by
    cases hk : h.entries entry.obj.Hostname with
    | none => simp [IsUpsertEntry, hk]
    | some old =>
      have hne : old.addr ≠ entry.addr := by
        intro ha
        have hobj := halias old hk ha
        rcases hdiff with hd | ⟨old2, ho2, hd⟩
        · rw [hk] at hd
          cases hd
        · rw [hk] at ho2
          injection ho2 with ho2
          subst ho2
          rw [hobj] at hd
          rcases hd with hd | hd <;> exact hd rfl
      simp [IsUpsertEntry, hk, hne]
  rw [hres]
  exact ⟨rfl, mapSet_same _ _ _, fun k hne => mapSet_other _ _ _ _ hne, rfl, rfl, rfl⟩

/-- The store that holds `{10.0.0.5, vm1, "managed by api"}` and an upsert of
a new entry for `vm1` with the IP `10.0.0.6`: the call returns true and the
new entry is stored. -/
theorem IsUpsertEntry_inserts_or_replaces_witness :
    (IsUpsertEntry (IsUpsertEntry (newAPI [] []) (vm1Entry 0)).1
      ⟨1, ⟨-1, "10.0.0.6".toList, "vm1".toList, "managed by api".toList⟩⟩).2 = true ∧
    (IsUpsertEntry (IsUpsertEntry (newAPI [] []) (vm1Entry 0)).1
      ⟨1, ⟨-1, "10.0.0.6".toList, "vm1".toList, "managed by api".toList⟩⟩).1.entries
        "vm1".toList =
      some ⟨1, ⟨-1, "10.0.0.6".toList, "vm1".toList, "managed by api".toList⟩⟩ ∧
    (∀ k, k ≠ "vm1".toList →
      (IsUpsertEntry (IsUpsertEntry (newAPI [] []) (vm1Entry 0)).1
        ⟨1, ⟨-1, "10.0.0.6".toList, "vm1".toList, "managed by api".toList⟩⟩).1.entries k =
      (IsUpsertEntry (newAPI [] []) (vm1Entry 0)).1.entries k) ∧
    (IsUpsertEntry (IsUpsertEntry (newAPI [] []) (vm1Entry 0)).1
      ⟨1, ⟨-1, "10.0.0.6".toList, "vm1".toList, "managed by api".toList⟩⟩).1.remidxs =
      (IsUpsertEntry (newAPI [] []) (vm1Entry 0)).1.remidxs ∧
    (IsUpsertEntry (IsUpsertEntry (newAPI [] []) (vm1Entry 0)).1
      ⟨1, ⟨-1, "10.0.0.6".toList, "vm1".toList, "managed by api".toList⟩⟩).1.filter =
      (IsUpsertEntry (newAPI [] []) (vm1Entry 0)).1.filter ∧
    (IsUpsertEntry (IsUpsertEntry (newAPI [] []) (vm1Entry 0)).1
      ⟨1, ⟨-1, "10.0.0.6".toList, "vm1".toList, "managed by api".toList⟩⟩).1.hostsfile =
      (IsUpsertEntry (newAPI [] []) (vm1Entry 0)).1.hostsfile :=
  IsUpsertEntry_inserts_or_replaces (IsUpsertEntry (newAPI [] []) (vm1Entry 0)).1
    ⟨1, ⟨-1, "10.0.0.6".toList, "vm1".toList, "managed by api".toList⟩⟩
    (fun old ho ha => by
      have h1 : (IsUpsertEntry (newAPI [] []) (vm1Entry 0)).1.entries "vm1".toList =
          some (vm1Entry 0) := by decide
      have h2 : some (vm1Entry 0) = some old := h1.symm.trans ho
      injection h2 with h2
      subst h2
      exact absurd ha (by decide))
    (Or.inr ⟨vm1Entry 0, by decide, Or.inl (by decide)⟩)


/-- The store `twoEntryStore` has exactly the keys `vm1` and `vm2`. -/
theorem twoEntryStore_keys (k : Str) :
    (twoEntryStore.entries k).isSome = true ↔ k = "vm1".toList ∨ k = "vm2".toList := by
  have hent : twoEntryStore.entries =
      mapSet (mapSet (fun _ => none) "vm1".toList (vm1Entry 0)) "vm2".toList (vm2Entry 1) := rfl
  rw [hent]
  by_cases h2 : k = "vm2".toList
  · simp [mapSet, h2]
  · by_cases h1 : k = "vm1".toList
    · simp [mapSet, h1]
    · simp only [mapSet, h1, h2, if_false, or_self, Option.isSome_none]
      decide

/-- Visiting `vm1` then `vm2` is a possible map iteration of `twoEntryStore`. -/
theorem twoEntryStore_range_vm1_vm2 :
    RangeOrder twoEntryStore.entries ["vm1".toList, "vm2".toList] := by
  refine ⟨by decide, fun k => ?_⟩
  rw [twoEntryStore_keys]
  simp

/-- Visiting `vm2` then `vm1` is a possible map iteration of `twoEntryStore`. -/
theorem twoEntryStore_range_vm2_vm1 :
    RangeOrder twoEntryStore.entries ["vm2".toList, "vm1".toList] := by
  refine ⟨by decide, fun k => ?_⟩
  rw [twoEntryStore_keys]
  simp [or_comm]

/-- The entries the second loop of `Write` visits are, position by position,
the entries stored under the keys visited. -/
theorem filterMap_forall2 {ν : Type} (m : Str → Option ν) (order : List Str)
    (hall : ∀ k ∈ order, (m k).isSome = true) :
    List.Forall₂ (fun k p => m k = some p) order (order.filterMap m) := by
  induction order with
  | nil => exact List.Forall₂.nil
  | cons k ks ih =>
    have hk := hall k (List.mem_cons_self _ _)
    have hks : ∀ j ∈ ks, (m j).isSome = true := fun j hj => hall j (List.mem_cons_of_mem _ hj)
    cases hm : m k with
    | none => rw [hm] at hk; cases hk
    | some v =>
      rw [List.filterMap_cons, hm]
      exact List.Forall₂.cons hm (ih hks)

/-- The text `Write` emits for one entry, spelled out. -/
theorem formatEntry_spelled (e : HostEntry) :
    formatEntry e =
      e.IP ++ [' '] ++ e.Hostname ++
        (if e.Comment = [] then [] else "    # ".toList ++ e.Comment) ++ ['\r', '\n'] := by
  unfold formatEntry
  by_cases hc : e.Comment = []
  · simp [hc]
  · simp [hc]

/-- C12: after the replayed original lines the buffer of `Write` consists of
one line per store entry and nothing else (the map iteration visits every key
exactly once, and the i-th line is that of the entry under the i-th key
visited); the line of entry `e` is `e.IP`, one space, `e.Hostname`, then
`    # ` and `e.Comment` when the Comment is non-empty, then CR LF. -/
theorem Write_outbuf_managed_format (h : HostsAPI) (order : List Str)
    (horder : RangeOrder h.entries order) :
    ∃ es : List HostEntryPtr,
      List.Forall₂ (fun k p => h.entries k = some p) order es ∧
      Write_outbuf h order =
        replayLines h.remidxs (scanLines h.hostsfile) 0 ++
        (es.map (fun p => p.obj.IP ++ [' '] ++ p.obj.Hostname ++
          (if p.obj.Comment = [] then [] else "    # ".toList ++ p.obj.Comment) ++
          ['\r', '\n'])).flatten := by
  refine ⟨order.filterMap h.entries,
    filterMap_forall2 h.entries order (fun k hk => (horder.2 k).1 hk), ?_⟩
  unfold Write_outbuf
  rw [appendEntries_eq]
  congr 2
  apply List.map_congr_left
  intro p _
  exact formatEntry_spelled p.obj

/-- The buffer `Write` builds for `twoEntryStore` when the iteration visits
`vm1` and then `vm2`. -/
theorem Write_outbuf_managed_format_witness :
    RangeOrder twoEntryStore.entries ["vm1".toList, "vm2".toList] ∧
    (∃ es : List HostEntryPtr,
      List.Forall₂ (fun k p => twoEntryStore.entries k = some p)
        ["vm1".toList, "vm2".toList] es ∧
      Write_outbuf twoEntryStore ["vm1".toList, "vm2".toList] =
        replayLines twoEntryStore.remidxs (scanLines twoEntryStore.hostsfile) 0 ++
        (es.map (fun p => p.obj.IP ++ [' '] ++ p.obj.Hostname ++
          (if p.obj.Comment = [] then [] else "    # ".toList ++ p.obj.Comment) ++
          ['\r', '\n'])).flatten) ∧
    Write_outbuf twoEntryStore ["vm1".toList, "vm2".toList] =
      "127.0.0.1 localhost\r\n10.0.0.5 vm1    # managed by api\r\n10.0.0.6 vm2\r\n".toList :=
  ⟨twoEntryStore_range_vm1_vm2,
   Write_outbuf_managed_format twoEntryStore ["vm1".toList, "vm2".toList]
     twoEntryStore_range_vm1_vm2,
   by decide⟩

/-- Two iterations of the same map visit the same keys, each once. -/
theorem RangeOrder_perm {ν : Type} (m : Str → Option ν) (o1 o2 : List Str)
    (h1 : RangeOrder m o1) (h2 : RangeOrder m o2) : o1.Perm o2 :=
  (List.perm_ext_iff_of_nodup h1.1 h2.1).2 (fun k => (h1.2 k).trans (h2.2 k).symm)

/-- C15 (as stated, refuted): `twoEntryStore` can be iterated in the order
vm1, vm2 and in the order vm2, vm1, and the two buffers `Write` builds over
the same original lines differ. -/
theorem Write_outbuf_order_dependent :
    RangeOrder twoEntryStore.entries ["vm1".toList, "vm2".toList] ∧
    RangeOrder twoEntryStore.entries ["vm2".toList, "vm1".toList] ∧
    Write_outbuf twoEntryStore ["vm1".toList, "vm2".toList] ≠
      Write_outbuf twoEntryStore ["vm2".toList, "vm1".toList] :=
  ⟨twoEntryStore_range_vm1_vm2, twoEntryStore_range_vm2_vm1, by decide⟩

/-- C15 (amended): the buffer of `Write` is determined by the original lines,
the store and the order in which the map iteration visits the keys; for any
two iterations of the same store the replayed lines are the same and the
managed lines are the same lines up to their order. -/
theorem Write_outbuf_up_to_order (h : HostsAPI) (o1 o2 : List Str)
    (h1 : RangeOrder h.entries o1) (h2 : RangeOrder h.entries o2) :
    Write_outbuf h o1 = replayLines h.remidxs (scanLines h.hostsfile) 0 ++
      ((o1.filterMap h.entries).map (fun p => formatEntry p.obj)).flatten ∧
    Write_outbuf h o2 = replayLines h.remidxs (scanLines h.hostsfile) 0 ++
      ((o2.filterMap h.entries).map (fun p => formatEntry p.obj)).flatten ∧
    ((o1.filterMap h.entries).map (fun p => formatEntry p.obj)).Perm
      ((o2.filterMap h.entries).map (fun p => formatEntry p.obj)) := by
  refine ⟨?_, ?_, ?_⟩
  · unfold Write_outbuf
    rw [appendEntries_eq]
  · unfold Write_outbuf
    rw [appendEntries_eq]
  · exact ((RangeOrder_perm h.entries o1 o2 h1 h2).filterMap h.entries).map _

/-- The two iterations of `twoEntryStore` give the same two managed lines in
opposite orders. -/
theorem Write_outbuf_up_to_order_witness :
    RangeOrder twoEntryStore.entries ["vm2".toList, "vm1".toList] ∧
    RangeOrder twoEntryStore.entries ["vm1".toList, "vm2".toList] ∧
    Write_outbuf twoEntryStore ["vm2".toList, "vm1".toList] =
      replayLines twoEntryStore.remidxs (scanLines twoEntryStore.hostsfile) 0 ++
      ((["vm2".toList, "vm1".toList].filterMap twoEntryStore.entries).map
        (fun p => formatEntry p.obj)).flatten ∧
    Write_outbuf twoEntryStore ["vm1".toList, "vm2".toList] =
      replayLines twoEntryStore.remidxs (scanLines twoEntryStore.hostsfile) 0 ++
      ((["vm1".toList, "vm2".toList].filterMap twoEntryStore.entries).map
        (fun p => formatEntry p.obj)).flatten ∧
    ((["vm2".toList, "vm1".toList].filterMap twoEntryStore.entries).map
      (fun p => formatEntry p.obj)).Perm
      ((["vm1".toList, "vm2".toList].filterMap twoEntryStore.entries).map
        (fun p => formatEntry p.obj)) :=
  ⟨twoEntryStore_range_vm2_vm1, twoEntryStore_range_vm1_vm2,
   Write_outbuf_up_to_order twoEntryStore ["vm2".toList, "vm1".toList]
     ["vm1".toList, "vm2".toList] twoEntryStore_range_vm2_vm1 twoEntryStore_range_vm1_vm2⟩


/-! ## Invariants of the store -/

/-- A client call keeps every entry stored under its own Hostname. -/
theorem applyOp_key_inv (h : HostsAPI) (op : Op)
    (hinv : ∀ k p, h.entries k = some p → p.obj.Hostname = k) :
    ∀ k p, (applyOp h op).entries k = some p → p.obj.Hostname = k := by
  have hset : ∀ (e : HostEntryPtr) k p,
      mapSet h.entries e.obj.Hostname e k = some p → p.obj.Hostname = k := by
    intro e k p hp
    by_cases hk : k = e.obj.Hostname
    · rw [hk, mapSet_same] at hp
      injection hp with hp
      rw [← hp, hk]
    · rw [mapSet_other _ _ _ _ hk] at hp
      exact hinv k p hp
  intro k p hp
  cases op with
  | add e =>
    cases hk : h.entries e.obj.Hostname with
    | none =>
      simp only [applyOp, AddEntry, hk] at hp
      exact hset e k p hp
    | some old =>
      simp only [applyOp, AddEntry, hk] at hp
      exact hinv k p hp
  | remove n =>
    cases hk : h.entries n with
    | none =>
      simp only [applyOp, RemoveEntry, hk] at hp
      exact hinv k p hp
    | some old =>
      simp only [applyOp, RemoveEntry, hk] at hp
      by_cases hkn : k = n
      · rw [hkn, mapDelete_same] at hp
        cases hp
      · rw [mapDelete_other _ _ _ hkn] at hp
        exact hinv k p hp
  | upsert e =>
    cases hk : h.entries e.obj.Hostname with
    | none =>
      simp only [applyOp, IsUpsertEntry, hk] at hp
      exact hset e k p hp
    | some old =>
      by_cases ha : old.addr = e.addr
      · simp only [applyOp, IsUpsertEntry, hk, ha, if_true] at hp
        exact hinv k p hp
      · simp only [applyOp, IsUpsertEntry, hk, ha, if_false] at hp
        exact hset e k p hp

theorem applyOps_key_inv (h : HostsAPI) (ops : List Op)
    (hinv : ∀ k p, h.entries k = some p → p.obj.Hostname = k) :
    ∀ k p, (applyOps h ops).entries k = some p → p.obj.Hostname = k := by
  induction ops generalizing h with
  | nil => exact hinv
  | cons op ops ih =>
    have := ih (applyOp h op) (applyOp_key_inv h op hinv)
    simpa [applyOps] using this

/-- When every entry is stored under its own Hostname, the hostnames of the
entries an iteration visits are the keys visited. -/
theorem hostnames_of_range (m : Str → Option HostEntryPtr) (order : List Str)
    (hinv : ∀ k p, m k = some p → p.obj.Hostname = k)
    (hall : ∀ k ∈ order, (m k).isSome = true) :
    (order.filterMap m).map (fun p => p.obj.Hostname) = order := by
  induction order with
  | nil => rfl
  | cons k ks ih =>
    have hk := hall k (List.mem_cons_self _ _)
    have hks : ∀ j ∈ ks, (m j).isSome = true := fun j hj => hall j (List.mem_cons_of_mem _ hj)
    cases hm : m k with
    | none => rw [hm] at hk; cases hk
    | some v =>
      rw [List.filterMap_cons, hm, List.map_cons, ih hks, hinv k v hm]

/-- C18: in every store obtained from the empty store by a load that returned
and any sequence of `AddEntry`, `RemoveEntry` and `IsUpsertEntry` calls, each
key equals the Hostname of the entry stored under it, so the hostnames of the
managed lines of one `Write` are pairwise different. -/
theorem store_key_invariant (filter : Str) (data : Str) (alloc : Nat) (h : HostsAPI)
    (alloc2 : Nat) (ops : List Op)
    (hload : loadAndParse (newAPI filter data) alloc = .ok (h, alloc2)) :
    (∀ k p, (applyOps h ops).entries k = some p → p.obj.Hostname = k) ∧
    (∀ order, RangeOrder (applyOps h ops).entries order →
      ((order.filterMap (applyOps h ops).entries).map (fun p => p.obj.Hostname)).Nodup) := by
  have hinv : ∀ k p, (applyOps h ops).entries k = some p → p.obj.Hostname = k :=
    applyOps_key_inv h ops
      (fun k p hp => (loadAndParse_store_wf filter data alloc h alloc2 hload k p hp).2.2)
  refine ⟨hinv, fun order horder => ?_⟩
  rw [hostnames_of_range _ order hinv (fun k hk => (horder.2 k).1 hk)]
  exact horder.1

/-- The key invariant on the store loaded from `sampleData` and changed by
`sampleOps`. -/
theorem store_key_invariant_witness :
    loadAndParse (newAPI "managed by api".toList sampleData) 0 =
      .ok (loaded "managed by api".toList sampleData, 4) ∧
    (∀ k p, (applyOps (loaded "managed by api".toList sampleData) sampleOps).entries k = some p →
      p.obj.Hostname = k) ∧
    (∀ order,
      RangeOrder (applyOps (loaded "managed by api".toList sampleData) sampleOps).entries order →
      ((order.filterMap
        (applyOps (loaded "managed by api".toList sampleData) sampleOps).entries).map
          (fun p => p.obj.Hostname)).Nodup) :=
  ⟨rfl, store_key_invariant "managed by api".toList sampleData 0
    (loaded "managed by api".toList sampleData) 4 sampleOps rfl⟩

/-- Every entry a load stores carries the index of an owned line. -/
theorem loadAndParse_idx_owned (filter : Str) (data : Str) (alloc : Nat) (h : HostsAPI)
    (alloc2 : Nat) (hload : loadAndParse (newAPI filter data) alloc = .ok (h, alloc2))
    (name : Str) (p : HostEntryPtr) (hp : h.entries name = some p) :
    h.remidxs p.obj.idx = true := by
  rcases loadAndParse_entries filter data alloc h alloc2 hload name with
    ⟨k, line, q, hk, hy, _, hs, _⟩ | ⟨_, hs⟩
  · rw [hs] at hp
    injection hp with hp
    subst hp
    have hidx : q.obj.idx = (k : Int) := by
      obtain ⟨a, es, r, hr, hrm, hre, _⟩ := hy
      rw [← hre]
      exact parseHostfileLine_idx a _ line es hr r hrm
    rw [hidx, loadAndParse_remidxs filter data alloc h alloc2 hload]
    exact ⟨k, line, q.obj, hk, rfl, hy⟩
  · rw [hs] at hp
    cases hp

/-- C19: after a load that returned, over the lines the scanner yields from
the file, every member of the owned-line set is an index of a line (at least
0, less than the number of lines) and the idx of every stored entry is a
member; `AddEntry`,
`RemoveEntry` and `IsUpsertEntry` never change the set, whatever they return;
so after any sequence of such calls the first loop of `Write` still copies
exactly the lines that were not owned at load time. -/
theorem owned_lines_invariant (filter : Str) (data : Str) (alloc : Nat) (h : HostsAPI)
    (alloc2 : Nat) (ops : List Op)
    (hload : loadAndParse (newAPI filter data) alloc = .ok (h, alloc2)) :
    (∀ j : Int, h.remidxs j = true → 0 ≤ j ∧ j < ((scanLines data).length : Int)) ∧
    (∀ name p, h.entries name = some p → h.remidxs p.obj.idx = true) ∧
    (∀ (s : HostsAPI) (e : HostEntryPtr), (AddEntry s e).1.remidxs = s.remidxs) ∧
    (∀ (s : HostsAPI) (n : Str), (RemoveEntry s n).1.remidxs = s.remidxs) ∧
    (∀ (s : HostsAPI) (e : HostEntryPtr), (IsUpsertEntry s e).1.remidxs = s.remidxs) ∧
    (applyOps h ops).remidxs = h.remidxs ∧
    replayLines (applyOps h ops).remidxs (scanLines (applyOps h ops).hostsfile) 0 =
      ((keptLines filter (scanLines data)).map (fun l => l ++ ['\r', '\n'])).flatten := by
  refine ⟨?_, loadAndParse_idx_owned filter data alloc h alloc2 hload,
    fun s e => (applyOp_frame s (.add e)).1, fun s n => (applyOp_frame s (.remove n)).1,
    fun s e => (applyOp_frame s (.upsert e)).1, (applyOps_frame h ops).1, ?_⟩
  · intro j hj
    obtain ⟨k, line, e, hk, hkj, _⟩ :=
      (loadAndParse_remidxs filter data alloc h alloc2 hload j).1 hj
    obtain ⟨hlt, _⟩ := List.getElem?_eq_some.1 hk
    rw [← hkj]
    exact ⟨Int.natCast_nonneg k, by exact_mod_cast hlt⟩
  · rw [(applyOps_frame h ops).1, (applyOps_frame h ops).2.1,
      (loadAndParse_hostsfile filter data alloc h alloc2 hload).1]
    exact replayLines_loaded filter data alloc h alloc2 hload

/-- The owned-line invariant on the store loaded from `sampleData` and
changed by `sampleOps`: lines 1 and 4 are owned and stay dropped. -/
theorem owned_lines_invariant_witness :
    loadAndParse (newAPI "managed by api".toList sampleData) 0 =
      .ok (loaded "managed by api".toList sampleData, 4) ∧
    ((∀ j : Int, (loaded "managed by api".toList sampleData).remidxs j = true →
      0 ≤ j ∧ j < ((scanLines sampleData).length : Int)) ∧
    (∀ name p, (loaded "managed by api".toList sampleData).entries name = some p →
      (loaded "managed by api".toList sampleData).remidxs p.obj.idx = true) ∧
    (∀ (s : HostsAPI) (e : HostEntryPtr), (AddEntry s e).1.remidxs = s.remidxs) ∧
    (∀ (s : HostsAPI) (n : Str), (RemoveEntry s n).1.remidxs = s.remidxs) ∧
    (∀ (s : HostsAPI) (e : HostEntryPtr), (IsUpsertEntry s e).1.remidxs = s.remidxs) ∧
    (applyOps (loaded "managed by api".toList sampleData) sampleOps).remidxs =
      (loaded "managed by api".toList sampleData).remidxs ∧
    replayLines (applyOps (loaded "managed by api".toList sampleData) sampleOps).remidxs
        (scanLines (applyOps (loaded "managed by api".toList sampleData) sampleOps).hostsfile)
          0 =
      ((keptLines "managed by api".toList (scanLines sampleData)).map
        (fun l => l ++ ['\r', '\n'])).flatten) ∧
    (loaded "managed by api".toList sampleData).remidxs 1 = true ∧
    (loaded "managed by api".toList sampleData).remidxs 4 = true ∧
    (loaded "managed by api".toList sampleData).remidxs 0 = false :=
  ⟨rfl, owned_lines_invariant "managed by api".toList sampleData 0
    (loaded "managed by api".toList sampleData) 4 sampleOps rfl, by decide, by decide, by decide⟩


/-! ## When the parser fails -/

/-- A run of spaces at the end of the text adds no field. -/
theorem fieldsFrom_trailing (u sp cur : Str) (hsp : ∀ c ∈ sp, isSpace c = true) :
    fieldsFrom (u ++ sp) cur = fieldsFrom u cur := by
  induction u generalizing cur with
  | nil =>
    cases sp with
    | nil => rfl
    | cons s sp1 =>
      by_cases hcur : cur = []
      · subst hcur
        have := fieldsFrom_spaces_nil (s :: sp1) [] hsp
        simpa using this
      · have := fieldsFrom_spaces (s :: sp1) [] cur (List.cons_ne_nil _ _) hsp hcur
        simp only [List.append_nil] at this
        rw [List.nil_append, this]
        simp [fieldsFrom, hcur]
  | cons c u ih =>
    show fieldsFrom (c :: (u ++ sp)) cur = fieldsFrom (c :: u) cur
    simp only [fieldsFrom]
    rw [ih [], ih (cur ++ [c])]

/-- The field being read when the scan goes on is the beginning of the first
field returned. -/
theorem fieldsFrom_first (s cur : Str) (hcur : cur ≠ []) :
    ∃ x rest, fieldsFrom s cur = (cur ++ x) :: rest := by
  induction s generalizing cur with
  | nil => exact ⟨[], [], by simp [fieldsFrom, hcur]⟩
  | cons c cs ih =>
    by_cases hc : isSpace c = true
    · exact ⟨[], fieldsFrom cs [], by simp [fieldsFrom, hc, hcur]⟩
    · obtain ⟨x, rest, hx⟩ := ih (cur ++ [c]) (by simp)
      refine ⟨c :: x, rest, ?_⟩
      simp only [fieldsFrom, hc]
      rw [if_neg (by simp), hx]
      simp

/-- What is left after the leading spaces are dropped begins with a code
point that is not a space. -/
theorem dropWhile_isSpace_head (l : Str) (c : Char) (t : Str)
    (h : l.dropWhile isSpace = c :: t) : isSpace c = false := by
  induction l with
  | nil => simp at h
  | cons a l ih =>
    by_cases ha : isSpace a = true
    · simp only [List.dropWhile, ha] at h
      exact ih h
    · simp only [List.dropWhile, ha] at h
      injection h with h1 _
      rw [← h1]
      simpa using ha

/-- A line with a non-space code point, cut at both ends: what remains
begins with the first non-space code point, and the line is that text between
two runs of spaces. -/
theorem TrimSpace_decompose (line : Str) (hne : ∃ c ∈ line, isSpace c = false) :
    ∃ c t pre sp, TrimSpace line = c :: t ∧ line.dropWhile isSpace = (c :: t) ++ sp ∧
      line = pre ++ (c :: t) ++ sp ∧ isSpace c = false ∧
      (∀ x ∈ pre, isSpace x = true) ∧ (∀ x ∈ sp, isSpace x = true) := by
  have hsplit : line = line.takeWhile isSpace ++ line.dropWhile isSpace :=
    (List.takeWhile_append_dropWhile isSpace line).symm
  have hpre : ∀ x ∈ line.takeWhile isSpace, isSpace x = true :=
    fun x hx => List.mem_takeWhile_imp hx
  generalize hd : line.dropWhile isSpace = d at hsplit
  have hrsplit : d.reverse =
      d.reverse.takeWhile isSpace ++ d.reverse.dropWhile isSpace :=
    (List.takeWhile_append_dropWhile isSpace d.reverse).symm
  have hd2 : d = (d.reverse.dropWhile isSpace).reverse ++ (d.reverse.takeWhile isSpace).reverse := by
    have := congrArg List.reverse hrsplit
    rw [List.reverse_reverse, List.reverse_append] at this
    exact this
  have hsp : ∀ x ∈ (d.reverse.takeWhile isSpace).reverse, isSpace x = true :=
    fun x hx => List.mem_takeWhile_imp (List.mem_reverse.1 hx)
  have htrim : TrimSpace line = (d.reverse.dropWhile isSpace).reverse := by
    unfold TrimSpace
    rw [hd]
  -- the first code point left by the front cut is not a space
  obtain ⟨c0, hc0, hc0s⟩ := hne
  have hdne : ∃ y ∈ d, isSpace y = false := by
    rw [hsplit] at hc0
    rcases List.mem_append.1 hc0 with h1 | h1
    · rw [hpre c0 h1] at hc0s
      cases hc0s
    · exact ⟨c0, h1, hc0s⟩
  cases d with
  | nil =>
    obtain ⟨y, hy, _⟩ := hdne
    exact absurd hy (List.not_mem_nil y)
  | cons c t0 =>
    have hcs : isSpace c = false := dropWhile_isSpace_head line c t0 hd
    generalize hu : ((c :: t0).reverse.dropWhile isSpace).reverse = u at hd2 htrim
    generalize hs : ((c :: t0).reverse.takeWhile isSpace).reverse = sp at hd2 hsp
    cases u with
    | nil =>
      exfalso
      rw [List.nil_append] at hd2
      have := hsp c (by rw [← hd2]; exact List.mem_cons_self _ _)
      rw [hcs] at this
      cases this
    | cons x t =>
      have hx : x = c := by
        have := congrArg List.head? hd2
        simpa using this.symm
      subst hx
      exact ⟨x, t, line.takeWhile isSpace, sp, htrim, hd2, by rw [List.append_assoc, ← hd2]; exact hsplit,
        hcs, hpre, hsp⟩

/-- Trimming a line does not change its fields. -/
theorem Fields_TrimSpace (line : Str) (hne : ∃ c ∈ line, isSpace c = false) :
    Fields (TrimSpace line) = Fields line := by
  obtain ⟨c, t, pre, sp, htrim, _, hline, _, hpre, hsp⟩ := TrimSpace_decompose line hne
  rw [htrim]
  conv_rhs => rw [hline]
  unfold Fields
  rw [List.append_assoc, fieldsFrom_spaces_nil pre _ hpre, fieldsFrom_trailing _ sp [] hsp]


/-- The field loop past the first field: the hostnames collected are the
fields up to the first one that begins with `#`, and the IP is left alone. -/
theorem scanFields_takeWhile (fs : List Str) (i : Nat) (st : FieldScan) (hi : i ≠ 0)
    (hfs : ∀ f ∈ fs, f ≠ []) :
    (scanFields fs i st).hostnames =
        st.hostnames ++ fs.takeWhile (fun f => decide (f.head? ≠ some '#')) ∧
      (scanFields fs i st).ip = st.ip := by
  induction fs generalizing i st with
  | nil => simp [scanFields]
  | cons f fs ih =>
    have hf : f ≠ [] := hfs f (List.mem_cons_self _ _)
    have hfs2 : ∀ g ∈ fs, g ≠ [] := fun g hg => hfs g (List.mem_cons_of_mem _ hg)
    unfold scanFields
    rw [if_neg hf]
    by_cases hm : f.head? = some '#'
    · rw [if_pos hm, List.takeWhile_cons]
      simp [hm]
    · rw [if_neg hm, if_neg hi, List.takeWhile_cons]
      obtain ⟨h1, h2⟩ := ih (i + 1) { st with hostnames := st.hostnames ++ [f] }
        (Nat.succ_ne_zero i) hfs2
      rw [h1, h2]
      simp [hm]

theorem mkEntries_length (a : Nat) (i : Int) (ip c : Str) (hns : List Str) :
    (mkEntries a i ip c hns).length = hns.length := by
  have := congrArg List.length (mkEntries_objs a i ip c hns)
  simpa using this

/-- The outcome of the parser on a line with a non-space code point, in terms
of the first such code point `c` and of the number of fields before the
first field that begins with `#`. -/
theorem parseHostfileLine_outcome (a : Nat) (i : Int) (line : Str)
    (hne : ∃ c ∈ line, isSpace c = false) :
    ((line.dropWhile isSpace).head? = some '#' ∧
      parseHostfileLine a i line = .error .commentLine) ∨
    ((line.dropWhile isSpace).head? ≠ some '#' ∧
      ((Fields line).takeWhile (fun f => decide (f.head? ≠ some '#'))).length < 2 ∧
      ∃ err, parseHostfileLine a i line = .error err) ∨
    ((line.dropWhile isSpace).head? ≠ some '#' ∧
      2 ≤ ((Fields line).takeWhile (fun f => decide (f.head? ≠ some '#'))).length ∧
      ∃ es, parseHostfileLine a i line = .ok es ∧ es ≠ []) := by
  obtain ⟨c, t, pre, sp, htrim, hdrop, hline, hcs, _, _⟩ := TrimSpace_decompose line hne
  have h0 : line ≠ [] := by
    obtain ⟨x, hx, _⟩ := hne
    exact List.ne_nil_of_mem hx
  have hhead : (line.dropWhile isSpace).head? = some c := by
    rw [hdrop]; rfl
  have hF : Fields line = Fields (c :: t) := by
    rw [← htrim]
    exact (Fields_TrimSpace line hne).symm
  rw [hhead, hF]
  by_cases hc : c = '#'
  · left
    refine ⟨by rw [hc], ?_⟩
    have hlen : ¬ line.length ≤ 0 := by
      cases line with
      | nil => exact absurd rfl h0
      | cons a l => simp
    unfold parseHostfileLine
    simp only [hlen, if_false, htrim, hc, if_true]
  · right
    have hc2 : (some c : Option Char) ≠ some '#' := fun h => hc (Option.some.inj h)
    have hdata := parseHostfileLine_data a i line c t h0 htrim hc
    obtain ⟨x, rest, hx⟩ := fieldsFrom_first t [c] (List.cons_ne_nil _ _)
    have hfields : Fields (c :: t) = (c :: x) :: rest := by
      unfold Fields
      simp only [fieldsFrom, hcs]
      simpa using hx
    have htok := Fields_tokens (c :: t)
    rw [hfields] at htok hdata ⊢
    have hrest : ∀ g ∈ rest, g ≠ [] := fun g hg => (htok g (List.mem_cons_of_mem _ hg)).1
    have hfirst : (c :: x).head? ≠ some '#' := hc2
    obtain ⟨hh, hip⟩ := scanFields_takeWhile rest 1
      { ip := c :: x, hostnames := [], commentidx := 0 } (by decide) hrest
    have hscan : scanFields ((c :: x) :: rest) 0 { ip := [], hostnames := [], commentidx := 0 } =
        scanFields rest 1 { ip := c :: x, hostnames := [], commentidx := 0 } := by
      simp only [scanFields, List.cons_ne_nil, hfirst, if_false, if_true]
    rw [hscan] at hdata
    simp only [List.nil_append] at hh
    generalize scanFields rest 1 { ip := c :: x, hostnames := [], commentidx := 0 } = st
      at hdata hh hip
    have htw : ((c :: x) :: rest).takeWhile (fun f => decide (f.head? ≠ some '#')) =
        (c :: x) :: st.hostnames := by
      rw [List.takeWhile_cons, hh]
      simp [hc]
    rw [htw]
    by_cases hbad : st.ip = [] ∨ st.hostnames.length = 0
    · left
      refine ⟨hc2, ?_, .invalidFields (c :: t), by rw [hdata, if_pos hbad]⟩
      rcases hbad with hb | hb
      · rw [hip] at hb
        exact absurd hb (List.cons_ne_nil _ _)
      · simp [hb]
    · right
      have hlenpos : st.hostnames.length ≠ 0 := fun h => hbad (Or.inr h)
      refine ⟨hc2, by simp only [List.length_cons]; omega, _, by rw [hdata, if_neg hbad], ?_⟩
      intro hnil
      have := congrArg List.length hnil
      rw [mkEntries_length] at this
      exact hlenpos this

/-- C14: on a line that has a non-space code point the parser returns an
error exactly when the first non-space code point is `#` or fewer than two
fields come before the first field that begins with `#` (all the fields when
there is none); otherwise it returns at least one entry. -/
theorem parseHostfileLine_error_iff (a : Nat) (i : Int) (line : Str)
    (hne : ∃ c ∈ line, isSpace c = false) :
    ((∃ err, parseHostfileLine a i line = .error err) ↔
      ((line.dropWhile isSpace).head? = some '#' ∨
        ((Fields line).takeWhile (fun f => decide (f.head? ≠ some '#'))).length < 2)) ∧
    ((¬ ∃ err, parseHostfileLine a i line = .error err) →
      ∃ es, parseHostfileLine a i line = .ok es ∧ es ≠ []) := by
  rcases parseHostfileLine_outcome a i line hne with
    ⟨hh, he⟩ | ⟨hh, hl, err, he⟩ | ⟨hh, hl, es, hes, hne2⟩
  · refine ⟨⟨fun _ => Or.inl hh, fun _ => ⟨_, he⟩⟩, fun hno => absurd ⟨_, he⟩ hno⟩
  · refine ⟨⟨fun _ => Or.inr hl, fun _ => ⟨_, he⟩⟩, fun hno => absurd ⟨_, he⟩ hno⟩
  · refine ⟨⟨?_, ?_⟩, fun _ => ⟨es, hes, hne2⟩⟩
    · rintro ⟨err, he⟩
      rw [hes] at he
      cases he
    · rintro (h1 | h1)
      · exact absurd h1 hh
      · omega

/-- The line `  10.0.0.5 #vm1 vm2` has a non-space code point and only one
field before its comment marker: the parser returns an error. -/
theorem parseHostfileLine_error_iff_witness :
    (∃ c ∈ "  10.0.0.5 #vm1 vm2".toList, isSpace c = false) ∧
    (((∃ err, parseHostfileLine 0 0 "  10.0.0.5 #vm1 vm2".toList = .error err) ↔
      (("  10.0.0.5 #vm1 vm2".toList.dropWhile isSpace).head? = some '#' ∨
        ((Fields "  10.0.0.5 #vm1 vm2".toList).takeWhile
          (fun f => decide (f.head? ≠ some '#'))).length < 2)) ∧
    ((¬ ∃ err, parseHostfileLine 0 0 "  10.0.0.5 #vm1 vm2".toList = .error err) →
      ∃ es, parseHostfileLine 0 0 "  10.0.0.5 #vm1 vm2".toList = .ok es ∧ es ≠ [])) ∧
    parseHostfileLine 0 0 "  10.0.0.5 #vm1 vm2".toList =
      .error (.invalidFields "10.0.0.5 #vm1 vm2".toList) :=
  ⟨⟨'1', by decide, by decide⟩,
   parseHostfileLine_error_iff 0 0 "  10.0.0.5 #vm1 vm2".toList ⟨'1', by decide, by decide⟩,
   by decide⟩


/-! ## Remove, then write -/

/-- The entries map of the store loaded from `sampleData` under the filter
`managed by api`. -/
theorem loaded_sample_entries :
    (loaded "managed by api".toList sampleData).entries =
      mapSet (mapSet (mapSet (fun _ => none) "vm1".toList
        ⟨1, ⟨1, "10.0.0.5".toList, "vm1".toList, "managed by api".toList⟩⟩) "vm1".toList
        ⟨2, ⟨4, "10.0.0.6".toList, "vm1".toList, "managed by api".toList⟩⟩) "vm2".toList
        ⟨3, ⟨4, "10.0.0.6".toList, "vm2".toList, "managed by api".toList⟩⟩ := rfl

/-- The store loaded from `sampleData` under the filter `managed by api` has
exactly the keys `vm1` and `vm2`. -/
theorem loaded_sample_keys (k : Str) :
    ((loaded "managed by api".toList sampleData).entries k).isSome = true ↔
      k = "vm1".toList ∨ k = "vm2".toList := by
  rw [loaded_sample_entries]
  by_cases h2 : k = "vm2".toList
  · simp [mapSet, h2]
  · by_cases h1 : k = "vm1".toList
    · simp [mapSet, h1]
    · simp only [mapSet, h1, h2, if_false, or_self, Option.isSome_none]
      decide

/-- The line `Write` emits for each entry of that store fits the scanner. -/
theorem loaded_sample_fits (name : Str) (p : HostEntryPtr)
    (hp : (loaded "managed by api".toList sampleData).entries name = some p) :
    FitsScanner (entryLine p.obj) := by
  rw [loaded_sample_entries] at hp
  by_cases h2 : name = "vm2".toList
  · rw [h2, mapSet_same] at hp
    injection hp with hp
    rw [← hp]
    decide
  · rw [mapSet_other _ _ _ _ h2] at hp
    by_cases h1 : name = "vm1".toList
    · rw [h1, mapSet_same] at hp
      injection hp with hp
      rw [← hp]
      decide
    · rw [mapSet_other _ _ _ _ h1, mapSet_other _ _ _ _ h1] at hp
      cases hp

/-- After `vm2` is removed from that store, the map iteration visits `vm1`
only. -/
theorem loaded_sample_range_after_remove :
    RangeOrder (RemoveEntry (loaded "managed by api".toList sampleData) "vm2".toList).1.entries
      ["vm1".toList] := by
  refine ⟨by decide, fun k => ?_⟩
  have hent : (RemoveEntry (loaded "managed by api".toList sampleData) "vm2".toList).1.entries =
      mapDelete (loaded "managed by api".toList sampleData).entries "vm2".toList := rfl
  rw [hent]
  by_cases h2 : k = "vm2".toList
  · subst h2
    rw [mapDelete_same]
    decide
  · rw [mapDelete_other _ _ _ h2, loaded_sample_keys, List.mem_singleton]
    exact ⟨fun h1 => Or.inl h1, fun h1 => h1.elim id (fun h3 => absurd h3 h2)⟩

/-- Remove, then write, on the lines the scanner yields: when the load
returned and `name` is a key of the loaded store, `RemoveEntry name` succeeds
and the buffer `Write` then builds consists of the lines the scanner yielded
that were not owned, unchanged and in order, followed by one line per
remaining entry, none of them for `name`; when every line written fits the
scanner, loading that output with the same filter returns a store without
`name` in which every other hostname has the IP and Comment it had after the
first load (and is absent if it was absent), and the lines that are not owned
are those the scanner yielded from the original file.  The lines of the file
behind a line that does not fit the scanner are not among them. -/
theorem RemoveEntry_then_Write (filter : Str) (data : Str) (alloc : Nat) (h : HostsAPI)
    (alloc2 : Nat) (name : Str) (p : HostEntryPtr) (order : List Str) (alloc3 : Nat)
    (hload : loadAndParse (newAPI filter data) alloc = .ok (h, alloc2))
    (hfitk : ∀ l ∈ keptLines filter (scanLines data), FitsScanner l)
    (hfite : ∀ k q, h.entries k = some q → FitsScanner (entryLine q.obj))
    (hp : h.entries name = some p)
    (horder : RangeOrder (RemoveEntry h name).1.entries order) :
    (RemoveEntry h name).2 = false ∧
    Write_outbuf (RemoveEntry h name).1 order =
      ((keptLines filter (scanLines data)).map (fun l => l ++ ['\r', '\n'])).flatten ++
      ((order.filterMap (RemoveEntry h name).1.entries).map
        (fun q => formatEntry q.obj)).flatten ∧
    (∀ q ∈ order.filterMap (RemoveEntry h name).1.entries, q.obj.Hostname ≠ name) ∧
    ∃ h2 alloc4,
      loadAndParse (newAPI filter (Write_outbuf (RemoveEntry h name).1 order))
        alloc3 = .ok (h2, alloc4) ∧
      h2.entries name = none ∧
      (∀ other, other ≠ name →
        (h2.entries other).map (fun q => (q.obj.IP, q.obj.Comment)) =
          (h.entries other).map (fun q => (q.obj.IP, q.obj.Comment))) ∧
      keptLines filter (scanLines (Write_outbuf (RemoveEntry h name).1 order)) =
        keptLines filter (scanLines data) := by
  have hres : RemoveEntry h name = ({ h with entries := mapDelete h.entries name }, false) := by
    simp [RemoveEntry, hp]
  rw [hres] at horder ⊢
  have hwf0 := loadAndParse_store_wf filter data alloc h alloc2 hload
  have hwf : ∀ k q, mapDelete h.entries name k = some q →
      WfEntry q.obj ∧ Admits filter q.obj ∧ q.obj.Hostname = k := by
    intro k q hq
    by_cases hk : k = name
    · rw [hk, mapDelete_same] at hq
      cases hq
    · rw [mapDelete_other _ _ _ hk] at hq
      exact hwf0 k q hq
  have hfit : ∀ k q, mapDelete h.entries name k = some q → FitsScanner (entryLine q.obj) := by
    intro k q hq
    by_cases hk : k = name
    · rw [hk, mapDelete_same] at hq
      cases hq
    · rw [mapDelete_other _ _ _ hk] at hq
      exact hfite k q hq
  refine ⟨rfl, ?_, ?_, ?_⟩
  · unfold Write_outbuf
    rw [appendEntries_eq]
    congr 1
    show replayLines h.remidxs (scanLines h.hostsfile) 0 = _
    rw [(loadAndParse_hostsfile filter data alloc h alloc2 hload).1]
    exact replayLines_loaded filter data alloc h alloc2 hload
  · intro q hq
    obtain ⟨k, _, hk⟩ := List.mem_filterMap.1 hq
    have hk2 : mapDelete h.entries name k = some q := hk
    rw [(hwf k q hk2).2.2]
    intro hkn
    rw [hkn, mapDelete_same] at hk2
    cases hk2
  · obtain ⟨h2, alloc4, hl2, hmap, hkept⟩ :=
      Write_reload filter data alloc h alloc2 { h with entries := mapDelete h.entries name }
        order alloc3 hload rfl rfl hwf hfitk hfit horder
    refine ⟨h2, alloc4, hl2, ?_, ?_, hkept⟩
    · have := hmap name
      have hnone : mapDelete h.entries name name = none := mapDelete_same _ _
      simp only [hnone, Option.map_none'] at this
      cases hh : h2.entries name with
      | none => rfl
      | some q => rw [hh] at this; cases this
    · intro other ho
      have := hmap other
      have hsame : mapDelete h.entries name other = h.entries other := mapDelete_other _ _ _ ho
      simp only [hsame] at this
      exact this

/-- The file `sampleData` loaded under `managed by api`, `vm2` removed and
the store written: the three lines that were not owned come first, then the
line of `vm1`, and reading the output back gives a store without `vm2`. -/
theorem RemoveEntry_then_Write_example :
    loadAndParse (newAPI "managed by api".toList sampleData) 0 =
      .ok (loaded "managed by api".toList sampleData, 4) ∧
    (loaded "managed by api".toList sampleData).entries "vm2".toList =
      some ⟨3, ⟨4, "10.0.0.6".toList, "vm2".toList, "managed by api".toList⟩⟩ ∧
    RangeOrder (RemoveEntry (loaded "managed by api".toList sampleData) "vm2".toList).1.entries
      ["vm1".toList] ∧
    ((RemoveEntry (loaded "managed by api".toList sampleData) "vm2".toList).2 = false ∧
    Write_outbuf (RemoveEntry (loaded "managed by api".toList sampleData) "vm2".toList).1
        ["vm1".toList] =
      ((keptLines "managed by api".toList (scanLines sampleData)).map
        (fun l => l ++ ['\r', '\n'])).flatten ++
      ((["vm1".toList].filterMap
        (RemoveEntry (loaded "managed by api".toList sampleData) "vm2".toList).1.entries).map
          (fun q => formatEntry q.obj)).flatten ∧
    (∀ q ∈ ["vm1".toList].filterMap
        (RemoveEntry (loaded "managed by api".toList sampleData) "vm2".toList).1.entries,
      q.obj.Hostname ≠ "vm2".toList) ∧
    ∃ h2 alloc4,
      loadAndParse (newAPI "managed by api".toList (Write_outbuf
        (RemoveEntry (loaded "managed by api".toList sampleData) "vm2".toList).1
        ["vm1".toList])) 4 = .ok (h2, alloc4) ∧
      h2.entries "vm2".toList = none ∧
      (∀ other, other ≠ "vm2".toList →
        (h2.entries other).map (fun q => (q.obj.IP, q.obj.Comment)) =
          ((loaded "managed by api".toList sampleData).entries other).map
            (fun q => (q.obj.IP, q.obj.Comment))) ∧
      keptLines "managed by api".toList (scanLines (Write_outbuf
        (RemoveEntry (loaded "managed by api".toList sampleData) "vm2".toList).1
        ["vm1".toList])) =
        keptLines "managed by api".toList (scanLines sampleData)) ∧
    Write_outbuf (RemoveEntry (loaded "managed by api".toList sampleData) "vm2".toList).1
        ["vm1".toList] =
      "127.0.0.1 localhost\r\n# static entries\r\n\r\n".toList ++
        "10.0.0.6 vm1    # managed by api\r\n".toList :=
  ⟨rfl, by decide, loaded_sample_range_after_remove,
   RemoveEntry_then_Write "managed by api".toList sampleData 0
     (loaded "managed by api".toList sampleData) 4 "vm2".toList
     ⟨3, ⟨4, "10.0.0.6".toList, "vm2".toList, "managed by api".toList⟩⟩ ["vm1".toList] 4
     rfl (by decide) loaded_sample_fits (by decide) loaded_sample_range_after_remove,
   by decide⟩


/-! ## A line that does not fit the scanner -/

/-- The scanner yields `sampleLines` from `sampleData`. -/
theorem scanLines_sampleData : scanLines sampleData = sampleLines := by
  decide

theorem Bytes_replicate_hash (n : Nat) : (Bytes (List.replicate n '#')).length = n := by
  induction n with
  | zero => rfl
  | succ n ih =>
    have e : List.replicate (n + 1) '#' = ['#'] ++ List.replicate n '#' := rfl
    have h1 : (Bytes ['#']).length = 1 := by decide
    rw [e, Bytes_append, List.length_append, ih, h1]
    omega

/-- The line `longComment` takes `MaxScanTokenSize` bytes, all of them `#`. -/
theorem longComment_bytes :
    (Bytes longComment).length = MaxScanTokenSize ∧ ∀ c ∈ longComment, c ≠ '\n' := by
  refine ⟨Bytes_replicate_hash MaxScanTokenSize, fun c hc => ?_⟩
  rw [List.eq_of_mem_replicate hc]
  decide

/-- The scan ends at `longComment`: nothing is yielded from it on. -/
theorem scanLines_longComment (rest : Str) : scanLines (longComment ++ '\n' :: rest) = [] :=
  scanLinesFrom_too_long longComment rest longComment_bytes.2
    (Nat.le_of_eq longComment_bytes.1.symm)

theorem scanLines_longFirstData : scanLines longFirstData = [] :=
  scanLines_longComment "127.0.0.1 localhost\n".toList

theorem scanLines_longThenManagedData : scanLines longThenManagedData = [] :=
  scanLines_longComment "10.0.0.6 vm2 # managed by api\n".toList

theorem scanLines_managedThenLongData :
    scanLines managedThenLongData = ["10.0.0.5 vm1 # managed by api".toList] := by
  unfold scanLines managedThenLongData
  rw [scanLinesFrom_line _ _ (by decide) (by decide)]
  have h2 := scanLines_longComment "127.0.0.1 localhost\n".toList
  unfold scanLines at h2
  rw [h2]
  decide

/-- On a file from which the scanner yields no line the load returns the
empty store. -/
theorem CreateAPI_of_scan_nil (filter data : Str) (alloc : Nat) (hs : scanLines data = []) :
    CreateAPI filter data alloc = .ok (newAPI filter data, alloc) := by
  unfold CreateAPI
  rw [loadAndParse_newAPI, hs]
  rfl

/-- On a file from which the scanner yields no line the first loop of `Write`
copies nothing. -/
theorem Write_outbuf_of_scan_nil (h : HostsAPI) (order : List Str)
    (hs : scanLines h.hostsfile = []) :
    Write_outbuf h order = appendEntries h.entries order := by
  unfold Write_outbuf
  rw [hs]
  rfl

/-- On a file from which the scanner yields the one line
`10.0.0.5 vm1 # managed by api`, the load under the filter `managed by api`
returns `vm1Store`. -/
theorem CreateAPI_of_scan_vm1 (data : Str)
    (hs : scanLines data = ["10.0.0.5 vm1 # managed by api".toList]) :
    CreateAPI "managed by api".toList data 0 = .ok (vm1Store data, 1) := by
  unfold CreateAPI
  rw [loadAndParse_newAPI, hs]
  rfl

/-- The store `vm1Store` holds the entry of `vm1`. -/
theorem vm1Store_vm1 (data : Str) :
    (vm1Store data).entries "vm1".toList =
      some ⟨0, ⟨0, "10.0.0.5".toList, "vm1".toList, "managed by api".toList⟩⟩ := by
  unfold vm1Store
  exact mapSet_same (fun _ => none) "vm1".toList _

/-- No key is in the map of the receiver `CreateAPI` starts from. -/
theorem newAPI_range (filter data : Str) : RangeOrder (newAPI filter data).entries [] :=
  ⟨List.nodup_nil, fun k => by simp [newAPI]⟩

/-- After `vm1` is removed from `vm1Store` the map is empty, and when the
scanner yields the one line of `vm1` from the file the buffer of `Write` is
empty. -/
theorem vm1Store_remove (data : Str)
    (hs : scanLines data = ["10.0.0.5 vm1 # managed by api".toList]) :
    (RemoveEntry (vm1Store data) "vm1".toList).2 = false ∧
    RangeOrder (RemoveEntry (vm1Store data) "vm1".toList).1.entries [] ∧
    Write_outbuf (RemoveEntry (vm1Store data) "vm1".toList).1 [] = [] := by
  have hres : RemoveEntry (vm1Store data) "vm1".toList =
      ({ vm1Store data with entries := mapDelete (vm1Store data).entries "vm1".toList },
        false) := rfl
  rw [hres]
  refine ⟨rfl, ⟨List.nodup_nil, fun k => ?_⟩, ?_⟩
  · show _ ↔ (mapDelete (mapSet (fun _ => none) "vm1".toList _) "vm1".toList k).isSome = true
    by_cases hk : k = "vm1".toList
    · rw [hk, mapDelete_same]
      simp
    · rw [mapDelete_other _ _ _ hk, mapSet_other _ _ _ _ hk]
      simp
  · show replayLines (setInsert (fun _ => false) 0) (scanLines data) 0 ++ _ = _
    rw [hs]
    rfl

/-- C3 (the code at the failing input): the hosts file `longFirstData` has a
comment line of 64 KiB and then the line `127.0.0.1 localhost`, which is not
owned under the filter `managed by api`.  The load returns the empty store
with an empty owned-line set, and the buffer `Write` then builds is empty:
the scan in `Write` ends at the long line, so the lines that are not owned
are not copied. -/
theorem Write_outbuf_drops_lines_behind_long_line :
    scanLines "127.0.0.1 localhost\n".toList = ["127.0.0.1 localhost".toList] ∧
    ownedLine "managed by api".toList 1 "127.0.0.1 localhost".toList = false ∧
    CreateAPI "managed by api".toList longFirstData 0 =
      .ok (newAPI "managed by api".toList longFirstData, 0) ∧
    (∀ j, (newAPI "managed by api".toList longFirstData).remidxs j = false) ∧
    RangeOrder (newAPI "managed by api".toList longFirstData).entries [] ∧
    Write_outbuf (newAPI "managed by api".toList longFirstData) [] = [] :=
  ⟨by decide, by decide,
   CreateAPI_of_scan_nil "managed by api".toList longFirstData 0 scanLines_longFirstData,
   fun _ => rfl,
   newAPI_range "managed by api".toList longFirstData,
   Write_outbuf_of_scan_nil (newAPI "managed by api".toList longFirstData) []
     scanLines_longFirstData⟩

/-- C7 (the code at the failing input): the hosts file `longThenManagedData`
has a comment line of 64 KiB and then the line
`10.0.0.6 vm2 # managed by api`, which parses to an entry for `vm2` whose
Comment contains the filter `managed by api`.  The load returns the empty
store: `vm2` is not a key and the owned-line set does not hold index 1,
because the scan ends at the long line. -/
theorem loadAndParse_stops_at_long_line :
    scanLines "10.0.0.6 vm2 # managed by api\n".toList =
      ["10.0.0.6 vm2 # managed by api".toList] ∧
    parseHostfileLine 0 1 "10.0.0.6 vm2 # managed by api".toList =
      .ok [⟨0, ⟨1, "10.0.0.6".toList, "vm2".toList, "managed by api".toList⟩⟩] ∧
    Admits "managed by api".toList
      ⟨1, "10.0.0.6".toList, "vm2".toList, "managed by api".toList⟩ ∧
    CreateAPI "managed by api".toList longThenManagedData 0 =
      .ok (newAPI "managed by api".toList longThenManagedData, 0) ∧
    (newAPI "managed by api".toList longThenManagedData).entries "vm2".toList = none ∧
    (newAPI "managed by api".toList longThenManagedData).remidxs 1 = false :=
  ⟨by decide, by decide, by decide,
   CreateAPI_of_scan_nil "managed by api".toList longThenManagedData 0
     scanLines_longThenManagedData,
   rfl, rfl⟩

/-- C11 (the code at the failing input): the hosts file `managedThenLongData`
has the managed line `10.0.0.5 vm1 # managed by api`, then a comment line of
64 KiB, then the line `127.0.0.1 localhost`, which is not owned.  Under the
filter `managed by api` the load returns `vm1Store`, whose only key is `vm1`,
owning line 0.  `RemoveEntry vm1` succeeds, and the buffer `Write` then
builds is empty: the lines that are not owned are not copied, because the
scan in `Write` ends at the long line. -/
theorem RemoveEntry_then_Write_drops_lines_behind_long_line :
    scanLines "127.0.0.1 localhost\n".toList = ["127.0.0.1 localhost".toList] ∧
    ownedLine "managed by api".toList 2 "127.0.0.1 localhost".toList = false ∧
    CreateAPI "managed by api".toList managedThenLongData 0 =
      .ok (vm1Store managedThenLongData, 1) ∧
    (vm1Store managedThenLongData).entries "vm1".toList =
      some ⟨0, ⟨0, "10.0.0.5".toList, "vm1".toList, "managed by api".toList⟩⟩ ∧
    (RemoveEntry (vm1Store managedThenLongData) "vm1".toList).2 = false ∧
    RangeOrder (RemoveEntry (vm1Store managedThenLongData) "vm1".toList).1.entries [] ∧
    Write_outbuf (RemoveEntry (vm1Store managedThenLongData) "vm1".toList).1 [] = [] :=
  ⟨by decide, by decide,
   CreateAPI_of_scan_vm1 managedThenLongData scanLines_managedThenLongData,
   vm1Store_vm1 managedThenLongData,
   vm1Store_remove managedThenLongData scanLines_managedThenLongData⟩

/-! ## Writing the file -/

/-- C16 (as stated, refuted): `twoEntryStore` is written over a hosts file
that holds `127.0.0.1 localhost`.  `Write` opens the hosts file itself with
`O_TRUNC`; there is no temporary file.  When the process stops right after the
open, the file is left empty; when it stops after 12 bytes were written, the
file holds the first 12 bytes of the new content only.  Neither is the old
content or the new content. -/
theorem Write_not_atomic :
    Write twoEntryStore ["vm1".toList, "vm2".toList] (Bytes "127.0.0.1 localhost\r\n".toList)
        { openFails := false, written := 0, stops := true, syncFails := false } =
      ([], .stopped) ∧
    ([] : List Nat) ≠ Bytes "127.0.0.1 localhost\r\n".toList ∧
    ([] : List Nat) ≠ Bytes (Write_outbuf twoEntryStore ["vm1".toList, "vm2".toList]) ∧
    Write twoEntryStore ["vm1".toList, "vm2".toList] (Bytes "127.0.0.1 localhost\r\n".toList)
        { openFails := false, written := 12, stops := true, syncFails := false } =
      (Bytes "127.0.0.1 lo".toList, .stopped) ∧
    Bytes "127.0.0.1 lo".toList ≠ Bytes "127.0.0.1 localhost\r\n".toList ∧
    Bytes "127.0.0.1 lo".toList ≠
      Bytes (Write_outbuf twoEntryStore ["vm1".toList, "vm2".toList]) := by
  decide

/-- C16 (amended): `Write` writes the buffer over the hosts file in place.
When the open fails the file keeps its old content and the open error is
returned.  When the open succeeds the old content is gone: the file holds the
bytes of the buffer that were written, all of them when the write completes.
When the write completes and the process does not stop, `Write` returns the
error of `f.Sync` when the sync fails and `nil` when it succeeds.  What
`Write` returns after a write that did not complete is not part of the
statement. -/
theorem Write_in_place (h : HostsAPI) (order : List Str) (disk : List Nat) (run : SysRun) :
    (run.openFails = true → Write h order disk run = (disk, .returned (some .openFailed))) ∧
    (run.openFails = false →
      (Write h order disk run).1 = (Bytes (Write_outbuf h order)).take run.written ∧
      ((Bytes (Write_outbuf h order)).length ≤ run.written →
        (Write h order disk run).1 = Bytes (Write_outbuf h order)) ∧
      (run.stops = true → (Write h order disk run).2 = .stopped) ∧
      ((Bytes (Write_outbuf h order)).length ≤ run.written → run.stops = false →
        run.syncFails = true →
        Write h order disk run =
          (Bytes (Write_outbuf h order), .returned (some .syncFailed))) ∧
      ((Bytes (Write_outbuf h order)).length ≤ run.written → run.stops = false →
        run.syncFails = false →
        Write h order disk run = (Bytes (Write_outbuf h order), .returned none))) := by
  refine ⟨fun ho => by simp [Write, ho], fun ho => ?_⟩
  have hfile : (Write h order disk run).1 = (Bytes (Write_outbuf h order)).take run.written := by
    unfold Write
    simp only [ho, Bool.false_eq_true, if_false]
    split
    · rfl
    · split <;> rfl
  refine ⟨hfile, fun hlen => ?_, fun hs => by simp [Write, ho, hs],
    fun hlen hs hy => ?_, fun hlen hs hy => ?_⟩
  · rw [hfile]
    exact List.take_of_length_le hlen
  · simp [Write, ho, hs, hy, List.take_of_length_le hlen]
  · simp [Write, ho, hs, hy, List.take_of_length_le hlen]

/-- The buffer for `twoEntryStore` takes 69 bytes; when the open succeeds, all
of them are written and the sync succeeds, the file holds the buffer and
`Write` returns `nil`; when the sync fails instead, its error is returned. -/
theorem Write_in_place_witness :
    Write twoEntryStore ["vm1".toList, "vm2".toList] (Bytes "127.0.0.1 localhost\r\n".toList)
        { openFails := false, written := 69, stops := false, syncFails := false } =
      (Bytes (Write_outbuf twoEntryStore ["vm1".toList, "vm2".toList]), .returned none) ∧
    Write twoEntryStore ["vm1".toList, "vm2".toList] (Bytes "127.0.0.1 localhost\r\n".toList)
        { openFails := false, written := 69, stops := false, syncFails := true } =
      (Bytes (Write_outbuf twoEntryStore ["vm1".toList, "vm2".toList]),
        .returned (some .syncFailed)) :=
  ⟨((Write_in_place twoEntryStore ["vm1".toList, "vm2".toList]
      (Bytes "127.0.0.1 localhost\r\n".toList)
      { openFails := false, written := 69, stops := false, syncFails := false }).2
        rfl).2.2.2.2 (by decide) rfl rfl,
   ((Write_in_place twoEntryStore ["vm1".toList, "vm2".toList]
      (Bytes "127.0.0.1 localhost\r\n".toList)
      { openFails := false, written := 69, stops := false, syncFails := true }).2
        rfl).2.2.2.1 (by decide) rfl rfl⟩


end Hostsapi
